import Mathlib

/-!
# twilio-mock: record store, subscriber registry and fan-out

A shallow embedding of `twilio-mock.go`.  The Go maps are association lists
read through lookup and membership, a `*client` pointer is a natural number
into a heap of client records, a buffered channel is its buffer together with
its closed flag, and the bytes produced by `json.Marshal` for the three wire
envelopes are kept as a structured value.
-/

namespace TwilioMock

/-! ## Data model -/

/-- The Go struct `message`. -/
structure message where
  Date : String
  Sid : String
  To : String
  From : String
  Body : String
  AccountSid : String
  MessagingServiceSid : String
  StatusCallback : String
deriving DecidableEq, Repr

/-- The Go struct `messages`: the map `items` from identifier to record.  The
map is an association list; only `lookup` and the operations below read it. -/
structure messages where
  items : List (String × message)

/-- The map read `ms.items[id]` (with its `ok` flag as `Option`). -/
def lookup (id : String) : List (String × message) → Option message
  | [] => none
  | (k, v) :: rest => if k = id then some v else lookup id rest

/-- The built-in `delete(ms.items, id)`. -/
def mapDelete (id : String) (l : List (String × message)) : List (String × message) :=
  l.filter (fun kv => decide (kv.1 ≠ id))

/-- The assignment `ms.items[id] = m`. -/
def mapStore (id : String) (m : message) (l : List (String × message)) :
    List (String × message) :=
  (id, m) :: mapDelete id l

/-- Go `func (ms *messages) add(m *message)`: `ms.items[m.Sid] = m`. -/
def messages.add (ms : messages) (m : message) : messages :=
  { items := mapStore m.Sid m ms.items }

/-- Go `func (ms *messages) del(id string)`: delete the key when it is present. -/
def messages.del (ms : messages) (id : String) : messages :=
  match lookup id ms.items with
  | some _ => { items := mapDelete id ms.items }
  | none => ms

/-- The store built by `main`: `make(map[string]*message)`. -/
def messages.empty : messages := { items := [] }

/-- One store operation of a caller. -/
inductive StoreOp where
  | add (m : message)
  | del (id : String)
deriving DecidableEq

/-- The identifier a store operation acts on. -/
def StoreOp.key : StoreOp → String
  | .add m => m.Sid
  | .del id => id

/-- Run one store operation. -/
def StoreOp.apply (ms : messages) : StoreOp → messages
  | .add m => ms.add m
  | .del id => ms.del id

/-- Run a sequence of store operations, first to last. -/
def messages.run (ops : List StoreOp) (ms : messages) : messages :=
  ops.foldl StoreOp.apply ms

/-- The most recent operation of the sequence on identifier `id`, if any
(written from the wording of the specification). -/
def mostRecent (ops : List StoreOp) (id : String) : Option StoreOp :=
  ops.reverse.find? (fun o => decide (o.key = id))

/-- What the specification expects under `id` after `ops`: the record of the
most recent operation when that was an add, nothing otherwise. -/
def expectedRecord (ops : List StoreOp) (id : String) : Option message :=
  match mostRecent ops id with
  | some (.add m) => some m
  | _ => none

/-- The identifier `postMessages` gives a new record:
`fmt.Sprintf("MG-twilio-mock-%d", time.Now().UnixNano())`. -/
def newSid (nanos : Int) : String :=
  "MG-twilio-mock-" ++ toString nanos

/-- The record `postMessages` builds (lines 244 to 253) from the time of the
request, the route variable and the form values. -/
def newMessage (date : String) (nanos : Int)
    (accountSid dest sender body serviceSid callback : String) : message :=
  { Date := date, Sid := newSid nanos, AccountSid := accountSid, To := dest, From := sender,
    Body := body, MessagingServiceSid := serviceSid, StatusCallback := callback }

/-- Keys of the association list. -/
def keys (l : List (String × message)) : List String := l.map Prod.fst

/-! ## Subscribers, registry and channels -/

/-- A `*client` pointer. -/
abbrev Ptr := Nat

/-- The bytes `json.Marshal` yields for the three anonymous envelope structs
of `broadcastAdd`, `broadcastDel` and `ws`, kept structured: action `add` with
`id` and `data`, action `del` with `id`, action `sync` with the item map. -/
inductive Envelope where
  | add (id : String) (data : message)
  | del (id : String)
  | sync (data : List (String × message))
deriving DecidableEq

/-- A Go channel `chan []byte`: the buffered values, oldest first, and whether
`close` has been called on it. -/
structure Chan where
  buf : List Envelope
  closed : Bool
deriving DecidableEq

/-- Capacity given in `ws`: `make(chan []byte, 32)`. -/
def chanCap : Nat := 32

/-- What a send statement `ch <- v` does. -/
inductive SendResult where
  | sent (ch : Chan)
  | full
  | closedChan
deriving DecidableEq

/-- The send statement `ch <- e`: a send on a closed channel panics, a send
on a channel with room appends to the buffer, a send on a full buffer waits. -/
def Chan.trySend (ch : Chan) (e : Envelope) : SendResult :=
  if ch.closed then .closedChan
  else if ch.buf.length < chanCap then .sent { ch with buf := ch.buf ++ [e] }
  else .full

/-- The Go struct `client`.  The connection `conn` is kept as whether
`conn.Close()` has run and the text frames `conn.WriteMessage` has written;
the fields `clients` and `messages` point to the one registry and the one
store of `main`, which live in `World`. -/
structure client where
  send : Chan
  isOpen : Bool
  connClosed : Bool
  written : List Envelope
deriving DecidableEq

/-- The Go struct `clients`: the key set of the map `items` (every value is
`true`).  `unregisterLog` is a ghost field: the arguments of the calls of
`unregister` so far, oldest first. -/
structure clients where
  items : List Ptr
  unregisterLog : List Ptr
deriving DecidableEq

/-- Go `func (cs *clients) register(c *client)`: `cs.items[c] = true`. -/
def clients.register (cs : clients) (c : Ptr) : clients :=
  if c ∈ cs.items then cs else { cs with items := c :: cs.items }

/-- Go `func (cs *clients) unregister(c *client)`: delete the key when it is
present (and note the call in the ghost log). -/
def clients.unregister (cs : clients) (c : Ptr) : clients :=
  if c ∈ cs.items then
    { items := cs.items.filter (fun q => decide (q ≠ c)),
      unregisterLog := cs.unregisterLog ++ [c] }
  else { cs with unregisterLog := cs.unregisterLog ++ [c] }

/-- The shared state: the store and the registry built in `main`, and the
heap of client structs the pointers refer to. -/
structure World where
  ms : messages
  cs : clients
  heap : Ptr → client

/-- A client struct nothing has been stored in yet. -/
def client.zero : client :=
  { send := { buf := [], closed := false }, isOpen := false, connClosed := false,
    written := [] }

/-- The state `main` starts with: empty store, empty registry. -/
def World.init : World :=
  { ms := messages.empty, cs := { items := [], unregisterLog := [] },
    heap := fun _ => client.zero }

/-- Overwrite the client struct behind pointer `c`. -/
def World.setClient (w : World) (c : Ptr) (cl : client) : World :=
  { w with heap := fun q => if q = c then cl else w.heap q }

/-- Replace the channel state of `c.send`. -/
def World.setSend (w : World) (c : Ptr) (ch : Chan) : World :=
  w.setClient c { w.heap c with send := ch }

/-- The queue of `c`: what is buffered in `c.send`. -/
def World.queue (w : World) (c : Ptr) : List Envelope := (w.heap c).send.buf

/-- What `for c := range cs.items` may yield: the keys of the map, each once,
in an order Go does not fix. -/
def isRange (order items : List Ptr) : Bool :=
  decide order.Nodup && order.all (fun q => decide (q ∈ items)) &&
    items.all (fun q => decide (q ∈ order))

/-- How a call that may wait or crash ends. `blocked w c rest`: the call is
waiting in the send statement on `c.send` in state `w`, with `rest` still to
be visited by its loop; `panic`: a send on a closed channel crashed the
process. -/
inductive Outcome where
  | done (w : World)
  | blocked (w : World) (c : Ptr) (rest : List Ptr)
  | panic

/-- The loop shared by `broadcastAdd` and `broadcastDel`, run without any
other task in between:
`for c := range cs.items { if c.isOpen { c.send <- jsn } }`,
with `order` what the range yields. -/
def clients.broadcast (e : Envelope) : List Ptr → World → Outcome
  | [], w => .done w
  | c :: rest, w =>
    if (w.heap c).isOpen then
      match (w.heap c).send.trySend e with
      | .sent ch => clients.broadcast e rest (w.setSend c ch)
      | .full => .blocked w c rest
      | .closedChan => .panic
    else clients.broadcast e rest w

/-- Go `func (cs *clients) broadcastAdd(m *message)`. -/
def clients.broadcastAdd (order : List Ptr) (m : message) (w : World) : Outcome :=
  clients.broadcast (.add m.Sid m) order w

/-- Go `func (cs *clients) broadcastDel(id string)`. -/
def clients.broadcastDel (order : List Ptr) (id : String) (w : World) : Outcome :=
  clients.broadcast (.del id) order w

/-- The guarded part of `client.close` (lines 98 to 107): when `c.isOpen`,
clear it, `close(c.send)` and `c.conn.Close()`.  `none`: `close` of an already
closed channel crashed the process. -/
def client.closeBody (c : Ptr) (w : World) : Option World :=
  if (w.heap c).isOpen then
    if (w.heap c).send.closed then none
    else some (w.setClient c
      { w.heap c with isOpen := false, send := { (w.heap c).send with closed := true },
                      connClosed := true })
  else some w

/-- Go `func (c *client) close()`, run without any other task in between:
the guarded part, then `c.clients.unregister(c)`. -/
def client.close (c : Ptr) (w : World) : Option World :=
  (client.closeBody c w).map (fun w1 => { w1 with cs := w1.cs.unregister c })

/-- Go `func (c *client) closeHandler(code int, text string) error`. -/
def client.closeHandler (c : Ptr) (w : World) : Option World :=
  client.close c w

/-- Calls of `close` on the same client, one after the other. -/
def closeTimes (c : Ptr) : Nat → World → Option World
  | 0, w => some w
  | k + 1, w => (client.close c w).bind (closeTimes c k)

/-- One pass of the body of the loop in `client.reader` on the frame `msg`
that `ReadMessage` returned.  `unmarshal` stands for `json.Unmarshal` into the
struct with fields `Action` and `Id` (`none`: it returned an error); `order`
is what the range in `broadcastDel` yields. -/
def client.readerBody (unmarshal : List Nat → Option (String × String))
    (order : List Ptr) (msg : List Nat) (w : World) : Outcome :=
  match unmarshal msg with
  | none => .done w
  | some (action, id) =>
    if action = "remove" then
      clients.broadcastDel order id { w with ms := w.ms.del id }
    else .done w

/-- Go `func (c *client) reader()` on the results of its successive calls of
`ReadMessage`: `some (msg, order)` is a frame (with the range order its
broadcast would see), `none` an error, on which the loop breaks and the
deferred `c.close()` runs.  On `[]` the loop is waiting in `ReadMessage`. -/
def client.reader (unmarshal : List Nat → Option (String × String)) (c : Ptr) :
    List (Option (List Nat × List Ptr)) → World → Outcome
  | [], w => .done w
  | none :: _, w =>
    match client.close c w with
    | some w1 => .done w1
    | none => .panic
  | some (msg, order) :: rest, w =>
    match client.readerBody unmarshal order msg w with
    | .done w1 => client.reader unmarshal c rest w1
    | o => o

/-- The client struct `ws` builds (lines 204 to 210). -/
def client.fresh : client :=
  { send := { buf := [], closed := false }, isOpen := true, connClosed := false,
    written := [] }

/-- Go `func ws(...)` after a successful upgrade, run without any other task
in between; `cl` is the pointer of the new client struct. -/
def ws (cl : Ptr) (w : World) : Outcome :=
  let w1 := w.setClient cl client.fresh
  let w2 := { w1 with cs := w1.cs.register cl }
  let jsn := Envelope.sync w2.ms.items
  match (w2.heap cl).send.trySend jsn with
  | .sent ch => .done (w2.setSend cl ch)
  | .full => .blocked w2 cl []
  | .closedChan => .panic

/-- The two core calls of `postMessages` (lines 255 and 256), run without any
other task in between. -/
def postMessages (order : List Ptr) (msg : message) (w : World) : Outcome :=
  clients.broadcastAdd order msg { w with ms := w.ms.add msg }

/-! ## Tasks interleaved statement by statement -/

/-- A call the producing task (an HTTP handler in `postMessages`, or a read
loop handling a remove frame) still has to make.  A broadcast carries the
order its range will yield. -/
inductive Job where
  | add (m : message)
  | del (id : String)
  | broadcastAdd (m : message) (order : List Ptr)
  | broadcastDel (id : String) (order : List Ptr)
deriving DecidableEq

/-- The envelope a job puts on the queues, if it is a broadcast. -/
def Job.envelope : Job → Option Envelope
  | .add _ => none
  | .del _ => none
  | .broadcastAdd m _ => some (.add m.Sid m)
  | .broadcastDel id _ => some (.del id)

/-- A broadcast in progress, holding `cs.RLock()`: the marshalled envelope,
the clients its range has not reached yet, and in `sending` the client `c`
whose `if c.isOpen` test it has passed and whose `c.send <- jsn` comes next. -/
structure Bcast where
  env : Envelope
  todo : List Ptr
  sending : Option Ptr
deriving DecidableEq

/-- Control state of the producing task. -/
structure Producer where
  cur : Option Bcast
  jobs : List Job
deriving DecidableEq

/-- Where the task running `ws` stands: before building the client struct and
starting its two tasks (lines 204 to 216), before `c.register(cl)`, before
marshalling the store under `m.RLock()`, before `cl.send <- jsn` (with `jsn`
the sync envelope of the item map `data` it marshalled), or after it. -/
inductive WsPc where
  | create
  | register
  | marshal
  | send (data : List (String × message))
  | returned
deriving DecidableEq

/-- Where a call of `close` stands once it has passed the test `if c.isOpen`
(line 98): before `c.isOpen = false` (line 99), before `close(c.send)` (line
101), before `c.conn.Close()` (line 103), or, the guarded part over or
skipped, before `c.clients.unregister(c)` (line 109). -/
inductive ClosePc where
  | clear
  | closeSend
  | closeConn
  | unregister
deriving DecidableEq

/-- Control state of the task running `ws` for the new client `cl`. -/
structure Setup where
  cl : Ptr
  pc : WsPc
deriving DecidableEq

/-- The shared state together with the control state of the tasks.  `closers`
lists the calls of `close` in progress: the client each is closing and where
it stands. -/
structure Config where
  w : World
  prod : Producer
  setup : Setup
  closers : List (Ptr × ClosePc)

/-- Which task runs its next statement: the producing task, the task in
`ws`, the write loop of `c` (taking one frame from `c.send` and writing it),
a task of `c` (its read loop, its write loop or the close handler) calling
`close` and running the test `if c.isOpen`, or a call of `close` on `c` that
stands at `pc` running that statement. -/
inductive Tick where
  | prod
  | ws
  | writer (c : Ptr)
  | closeCall (c : Ptr)
  | closeStep (c : Ptr) (pc : ClosePc)
deriving DecidableEq

/-- What a statement does: it runs, it has to wait, it is not what the task
can do next, or it crashes the process. -/
inductive Result where
  | ok (cfg : Config)
  | blocked
  | invalid
  | panic

/-- Start the range loop of a broadcast, once `cs.RLock()` is taken. -/
def Config.startBroadcast (cfg : Config) (e : Envelope) (order : List Ptr)
    (js : List Job) : Result :=
  if isRange order cfg.w.cs.items then
    .ok { cfg with prod := { cur := some { env := e, todo := order, sending := none },
                             jobs := js } }
  else .invalid

/-- Next statement of the producing task. -/
def Config.stepProd (cfg : Config) : Result :=
  match cfg.prod.cur with
  | some b =>
    match b.sending with
    | some c =>
      match (cfg.w.heap c).send.trySend b.env with
      | .sent ch =>
        .ok { cfg with w := cfg.w.setSend c ch,
                       prod := { cfg.prod with cur := some { b with sending := none } } }
      | .full => .blocked
      | .closedChan => .panic
    | none =>
      match b.todo with
      | c :: rest =>
        let next : Bcast :=
          { env := b.env, todo := rest,
            sending := if (cfg.w.heap c).isOpen then some c else none }
        .ok { cfg with prod := { cfg.prod with cur := some next } }
      | [] => .ok { cfg with prod := { cfg.prod with cur := none } }
  | none =>
    match cfg.prod.jobs with
    | [] => .invalid
    | .add m :: js =>
      .ok { cfg with w := { cfg.w with ms := cfg.w.ms.add m },
                     prod := { cur := none, jobs := js } }
    | .del id :: js =>
      .ok { cfg with w := { cfg.w with ms := cfg.w.ms.del id },
                     prod := { cur := none, jobs := js } }
    | .broadcastAdd m order :: js => cfg.startBroadcast (.add m.Sid m) order js
    | .broadcastDel id order :: js => cfg.startBroadcast (.del id) order js

/-- The pointer `c` is in use: it is a key of the registry, or a call of
`close` on it is in progress. -/
def Config.inUse (cfg : Config) (c : Ptr) : Bool :=
  decide (c ∈ cfg.w.cs.items) || cfg.closers.any (fun x => decide (x.1 = c))

/-- Next statement of the task in `ws`.  The struct it builds is new, so its
pointer is not one in use.  `register` takes `cs.Lock()` and so waits while a
broadcast holds `cs.RLock()`. -/
def Config.stepWs (cfg : Config) : Result :=
  match cfg.setup.pc with
  | .create =>
    if cfg.inUse cfg.setup.cl then .invalid
    else .ok { cfg with w := cfg.w.setClient cfg.setup.cl client.fresh,
                        setup := { cfg.setup with pc := .register } }
  | .register =>
    match cfg.prod.cur with
    | some _ => .blocked
    | none =>
      .ok { cfg with w := { cfg.w with cs := cfg.w.cs.register cfg.setup.cl },
                     setup := { cfg.setup with pc := .marshal } }
  | .marshal =>
    .ok { cfg with setup := { cfg.setup with pc := .send cfg.w.ms.items } }
  | .send data =>
    match (cfg.w.heap cfg.setup.cl).send.trySend (.sync data) with
    | .sent ch =>
      .ok { cfg with w := cfg.w.setSend cfg.setup.cl ch,
                     setup := { cfg.setup with pc := .returned } }
    | .full => .blocked
    | .closedChan => .panic
  | .returned => .invalid

/-- The client struct after its write loop has taken the frame `e` from the
queue, leaving `rest`, and written it to the connection. -/
def client.afterWrite (cl : client) (e : Envelope) (rest : List Envelope) : client :=
  { cl with send := { cl.send with buf := rest }, written := cl.written ++ [e] }

/-- One turn of the loop of Go `func (c *client) writer()` through the first
case of its select: it takes the next frame from `c.send` and writes it to the
connection.  It waits on an empty open channel; on a drained closed channel,
or once the connection is closed, the loop is over (the deferred `c.close()`
is the ticks `closeCall` and `closeStep`).  The ticker case writes a ping,
which is not a frame of the outbound stream and changes nothing here. -/
def Config.stepWriter (cfg : Config) (c : Ptr) : Result :=
  match (cfg.w.heap c).send.buf with
  | [] => if (cfg.w.heap c).send.closed then .invalid else .blocked
  | e :: rest =>
    if (cfg.w.heap c).connClosed then .invalid
    else .ok { cfg with w := cfg.w.setClient c ((cfg.w.heap c).afterWrite e rest) }

/-- The client struct after `c.isOpen = false`. -/
def client.cleared (cl : client) : client :=
  { cl with isOpen := false }

/-- The client struct after `close(c.send)`. -/
def client.sendClosed (cl : client) : client :=
  { cl with send := { cl.send with closed := true } }

/-- The client struct after `c.conn.Close()`. -/
def client.connShut (cl : client) : client :=
  { cl with connClosed := true }

/-- A task calls `close` on `c` and runs the test `if c.isOpen` (line 98):
the call goes on to the guarded part, or straight to `unregister`. -/
def Config.stepCloseCall (cfg : Config) (c : Ptr) : Result :=
  .ok { cfg with closers :=
    (c, if (cfg.w.heap c).isOpen then ClosePc.clear else ClosePc.unregister) :: cfg.closers }

/-- A call of `close` on `c` standing at `pc` runs that statement.  The
statements of the guarded part take no lock; `close` of a channel that is
already closed crashes the process; `unregister` takes `cs.Lock()` and so
waits while a broadcast holds `cs.RLock()`. -/
def Config.stepClose (cfg : Config) (c : Ptr) (pc : ClosePc) : Result :=
  if (c, pc) ∈ cfg.closers then
    match pc with
    | .clear =>
      .ok { cfg with w := cfg.w.setClient c (cfg.w.heap c).cleared,
                     closers := (c, .closeSend) :: cfg.closers.erase (c, .clear) }
    | .closeSend =>
      if (cfg.w.heap c).send.closed then .panic
      else .ok { cfg with w := cfg.w.setClient c (cfg.w.heap c).sendClosed,
                          closers := (c, .closeConn) :: cfg.closers.erase (c, .closeSend) }
    | .closeConn =>
      .ok { cfg with w := cfg.w.setClient c (cfg.w.heap c).connShut,
                     closers := (c, .unregister) :: cfg.closers.erase (c, .closeConn) }
    | .unregister =>
      match cfg.prod.cur with
      | some _ => .blocked
      | none =>
        .ok { cfg with w := { cfg.w with cs := cfg.w.cs.unregister c },
                       closers := cfg.closers.erase (c, .unregister) }
  else .invalid

/-- Run the next statement of the chosen task. -/
def Config.step (cfg : Config) : Tick → Result
  | .prod => cfg.stepProd
  | .ws => cfg.stepWs
  | .writer c => cfg.stepWriter c
  | .closeCall c => cfg.stepCloseCall c
  | .closeStep c pc => cfg.stepClose c pc

/-- The statements of one call of `close` on `c`, given what its test
`if c.isOpen` finds. -/
def closeTicks (c : Ptr) (wasOpen : Bool) : List Tick :=
  if wasOpen then
    [.closeCall c, .closeStep c .clear, .closeStep c .closeSend, .closeStep c .closeConn,
      .closeStep c .unregister]
  else [.closeCall c, .closeStep c .unregister]

/-- Run a schedule, stopping at the first statement that does not run. -/
def Config.run : List Tick → Config → Result
  | [], cfg => .ok cfg
  | t :: ts, cfg =>
    match cfg.step t with
    | .ok cfg1 => Config.run ts cfg1
    | r => r

/-- The queue of client `c` after a run, when the run went through. -/
def Result.queue (r : Result) (c : Ptr) : Option (List Envelope) :=
  match r with
  | .ok cfg => some (cfg.w.queue c)
  | _ => none

/-- Whether the run crashed the process. -/
def Result.isPanic : Result → Bool
  | .panic => true
  | _ => false

/-- Whether the statement had to wait. -/
def Result.isBlocked : Result → Bool
  | .blocked => true
  | _ => false

/-- The envelopes the broadcasts among `jobs` emit, in order. -/
def envelopes (jobs : List Job) : List Envelope :=
  jobs.filterMap Job.envelope

/-- The producing task has made all its calls. -/
def Producer.finished (p : Producer) : Bool :=
  p.cur.isNone && p.jobs.isEmpty

/-! ## Sample data -/

/-- A record as `postMessages` builds it. -/
def sampleMsg : message :=
  { Date := "Mon, 02 Jan 2006 15:04:05 -0700", Sid := "M1", To := "+100", From := "+200",
    Body := "hi", AccountSid := "AC1", MessagingServiceSid := "", StatusCallback := "" }

/-- A start state with no subscriber yet, `ws` about to set up client 0, and
a producing task about to run the two core calls of `postMessages`. -/
def raceStart : Config :=
  { w := World.init,
    prod := { cur := none, jobs := [.add sampleMsg, .broadcastAdd sampleMsg [0]] },
    setup := { cl := 0, pc := .create },
    closers := [] }

/-! ## State predicates and projections -/

/-- The client struct after one more envelope has been put on its queue. -/
def client.enqueued (cl : client) (e : Envelope) : client :=
  { cl with send := { cl.send with buf := cl.send.buf ++ [e] } }

/-- The client struct after the guarded part of `close` has run on it. -/
def client.closed (cl : client) : client :=
  { cl with isOpen := false, send := { cl.send with closed := true }, connClosed := true }

/-- The state after `ws` has set up client 0 on the start state of `main`. -/
def connectedWorld : World :=
  { ms := messages.empty,
    cs := { items := [0], unregisterLog := [] },
    heap := fun q =>
      if q = 0 then { client.fresh with send := { buf := [.sync []], closed := false } }
      else client.zero }

/-- The unregister log after a call that may have crashed. -/
def unregisterLogOf (r : Option World) : Option (List Ptr) :=
  r.map (fun w => w.cs.unregisterLog)

/-- A client whose open flag is set has a send channel that is not closed:
`close` clears the flag before it closes the channel, and nothing sets the
flag again. -/
def World.wf (w : World) : Prop :=
  ∀ c, (w.heap c).isOpen = true → (w.heap c).send.closed = false

/-- The envelopes the producing task has still to put on the queue of a
subscriber `p` that stays registered and open: the envelope of the broadcast
in progress if its range has not passed `p`, then those of the broadcasts to
come. -/
def Producer.pendingFor (pr : Producer) (p : Ptr) : List Envelope :=
  (match pr.cur with
    | none => []
    | some b =>
      List.replicate ((if b.sending = some p then 1 else 0) + b.todo.count p) b.env)
  ++ envelopes pr.jobs

/-- Whether the envelope is a sync envelope. -/
def Envelope.isSync : Envelope → Bool
  | .sync _ => true
  | _ => false

/-- The envelopes of the list that broadcasts emit: all but the sync
envelopes. -/
def broadcastOnly (l : List Envelope) : List Envelope :=
  l.filter (fun e => !e.isSync)

/-- What holds of a subscriber `p` that is registered, open and on which no
`close` is called, in every state of a run: the envelopes selected by `keep`
among those written to its connection and those in its queue, followed by
what is still to be broadcast to it, are the fixed sequence `total`.  Either
`keep` drops the sync envelopes, or the task in `ws` is not about to send one
to `p`. -/
def Config.Inv (keep : Envelope → Bool) (p : Ptr) (total : List Envelope)
    (cfg : Config) : Prop :=
  p ∈ cfg.w.cs.items ∧ (cfg.w.heap p).isOpen = true ∧
  (cfg.w.heap p).send.closed = false ∧ (cfg.w.heap p).connClosed = false ∧
  ((cfg.w.heap p).written ++ cfg.w.queue p).filter keep ++ cfg.prod.pendingFor p = total ∧
  (∀ b, cfg.prod.cur = some b → keep b.env = true) ∧
  ((∀ d, keep (.sync d) = false) ∨ cfg.setup.cl ≠ p ∨ cfg.setup.pc = .returned) ∧
  (∀ pc, (p, pc) ∉ cfg.closers)

/-- Every registered open subscriber has room in its queue. -/
def World.room (w : World) : Prop :=
  ∀ c, c ∈ w.cs.items → (w.heap c).isOpen = true → (w.queue c).length < chanCap

/-- The state a call ended or waits in. -/
def Outcome.world : Outcome → Option World
  | .done w => some w
  | .blocked w _ _ => some w
  | .panic => none

/-- Whether the call returned. -/
def Outcome.isDone : Outcome → Bool
  | .done _ => true
  | _ => false

/-- The client whose full queue the call is waiting on. -/
def Outcome.waitingOn : Outcome → Option Ptr
  | .blocked _ c _ => some c
  | _ => none

/-- A full queue of 32 envelopes. -/
def fullQueue : List Envelope := List.replicate 32 (Envelope.del "old")

/-- Two registered open subscribers: 0 with a full queue that is not being
drained, 1 with an empty queue. -/
def saturatedWorld : World :=
  { ms := messages.empty,
    cs := { items := [0, 1], unregisterLog := [] },
    heap := fun q =>
      if q = 0 then { client.fresh with send := { buf := fullQueue, closed := false } }
      else client.fresh }

/-- A record with an empty identifier. -/
def emptySidMsg : message := { sampleMsg with Sid := "" }

/-- A stand-in for `json.Unmarshal`: the one-byte frame 1 decodes to action
`remove` with id `M1`, the frame 2 to action `ping`, anything else is an
error. -/
def sampleUnmarshal (msg : List Nat) : Option (String × String) :=
  if msg = [1] then some ("remove", "M1")
  else if msg = [2] then some ("ping", "")
  else none

/-- One registered open subscriber with an empty queue, and `M1` stored. -/
def oneClientWorld : World :=
  { ms := messages.empty.add sampleMsg,
    cs := { items := [0], unregisterLog := [] },
    heap := fun _ => client.fresh }

/-- The queue of `c` in the state a call ended or waits in. -/
def Outcome.queue (o : Outcome) (c : Ptr) : Option (List Envelope) :=
  o.world.map (fun w => w.queue c)

/-- The open flag of `c` in the state a call ended or waits in. -/
def Outcome.isOpen (o : Outcome) (c : Ptr) : Option Bool :=
  o.world.map (fun w => (w.heap c).isOpen)

/-- The registered subscribers in the state a call ended or waits in. -/
def Outcome.registered (o : Outcome) : Option (List Ptr) :=
  o.world.map (fun w => w.cs.items)

/-- Subscriber 0 set up and registered, and a producing task about to
broadcast a removal to it. -/
def closeRaceStart : Config :=
  { w := connectedWorld,
    prod := { cur := none, jobs := [.broadcastDel "M1" [0]] },
    setup := { cl := 0, pc := .returned },
    closers := [] }

/-- The state a run ended in, or `d` when it did not go through. -/
def Result.getD (r : Result) (d : Config) : Config :=
  match r with
  | .ok cfg => cfg
  | _ => d

/-- Subscriber 0 set up and registered, with its sync envelope still queued,
and a producing task about to broadcast a removal and then a creation. -/
def deliveryStart : Config :=
  { w := connectedWorld,
    prod := { cur := none,
              jobs := [.broadcastDel "M0" [0], .add sampleMsg, .broadcastAdd sampleMsg [0]] },
    setup := { cl := 0, pc := .returned },
    closers := [] }

/-- A schedule that runs the calls of `deliveryStart` to the end, the write
loop of subscriber 0 taking a frame now and then. -/
def deliverySchedule : List Tick :=
  [.prod, .prod, .writer 0, .prod, .prod, .prod, .prod, .prod, .writer 0, .prod, .prod]

/-- Every registered open subscriber has its queue and its connection not
closed. -/
def World.live (w : World) : Prop :=
  ∀ c, c ∈ w.cs.items → (w.heap c).isOpen = true →
    (w.heap c).send.closed = false ∧ (w.heap c).connClosed = false

/-- The registry and the flags of every client are the same in both
states. -/
def World.sameShape (w w1 : World) : Prop :=
  w1.cs = w.cs ∧ ∀ q, (w1.heap q).isOpen = (w.heap q).isOpen ∧
    (w1.heap q).send.closed = (w.heap q).send.closed ∧
    (w1.heap q).connClosed = (w.heap q).connClosed

/-- The range order a broadcast job carries is one the registry `items` can
yield. -/
def Job.valid (items : List Ptr) : Job → Bool
  | .add _ => true
  | .del _ => true
  | .broadcastAdd _ order => isRange order items
  | .broadcastDel _ order => isRange order items

/-- The schedule runs only the producing task and write loops. -/
def onlyProdAndWriters (sched : List Tick) : Prop :=
  ∀ t, t ∈ sched → t = .prod ∨ ∃ c, t = .writer c

/-- A client whose open flag is set has neither its queue nor its connection
closed. -/
def World.openInv (w : World) : Prop :=
  ∀ c, (w.heap c).isOpen = true →
    (w.heap c).send.closed = false ∧ (w.heap c).connClosed = false

/-- What holds in every state reached from the start: a client whose open
flag is set has neither its queue nor its connection closed, and a call of
`close` that is past `c.isOpen = false` works on a client whose flag is
clear. -/
def Config.openInv (cfg : Config) : Prop :=
  cfg.w.openInv ∧
  ∀ c, ((c, ClosePc.closeSend) ∈ cfg.closers ∨ (c, ClosePc.closeConn) ∈ cfg.closers) →
    (cfg.w.heap c).isOpen = false

/-- The start state of `main` with no task under way, `ws` about to set up
client `cl` and the producing task about to run `jobs`. -/
def Config.init (cl : Ptr) (jobs : List Job) : Config :=
  { w := World.init, prod := { cur := none, jobs := jobs },
    setup := { cl := cl, pc := .create }, closers := [] }

/-- Two registered open subscribers with room: 0 with its sync envelope still
queued, 1 with an empty queue; `M1` is stored. -/
def pairWorld : World :=
  { ms := messages.empty.add sampleMsg,
    cs := { items := [0, 1], unregisterLog := [] },
    heap := fun q =>
      if q = 0 then { client.fresh with send := { buf := [.sync []], closed := false } }
      else client.fresh }

/-- The saturated subscriber 0 and the healthy subscriber 1, no task under
way, and a producing task about to broadcast a removal. -/
def stalledStart : Config :=
  { w := saturatedWorld,
    prod := { cur := none, jobs := [.broadcastDel "M1" [0, 1]] },
    setup := { cl := 2, pc := .returned },
    closers := [] }

/-- Client `c` is open, its queue and connection are not closed, and what it
has written followed by what is in its queue is `l`. -/
def World.streamIs (w : World) (c : Ptr) (l : List Envelope) : Prop :=
  (w.heap c).isOpen = true ∧ (w.heap c).send.closed = false ∧
  (w.heap c).connClosed = false ∧ (w.heap c).written ++ w.queue c = l

/-- What holds while `ws` sets up its client after the record `m` has been
stored and before the producing task moves on: the record stays in the store;
once built, the client is open, with no call of `close` on it, and its stream
is empty until the sync envelope is sent; the snapshot taken has the record;
once `ws` has returned the client is registered and its stream is the sync
envelope alone. -/
def Config.SetupInv (m : message) (cfg : Config) : Prop :=
  lookup m.Sid cfg.w.ms.items = some m ∧
  match cfg.setup.pc with
  | .create => True
  | .register =>
    (∀ pc, (cfg.setup.cl, pc) ∉ cfg.closers) ∧ cfg.w.streamIs cfg.setup.cl []
  | .marshal =>
    (∀ pc, (cfg.setup.cl, pc) ∉ cfg.closers) ∧ cfg.setup.cl ∈ cfg.w.cs.items ∧
      cfg.w.streamIs cfg.setup.cl []
  | .send data =>
    (∀ pc, (cfg.setup.cl, pc) ∉ cfg.closers) ∧ cfg.setup.cl ∈ cfg.w.cs.items ∧
      cfg.w.streamIs cfg.setup.cl [] ∧ lookup m.Sid data = some m
  | .returned =>
    (∀ pc, (cfg.setup.cl, pc) ∉ cfg.closers) ∧ cfg.setup.cl ∈ cfg.w.cs.items ∧
      ∃ data, lookup m.Sid data = some m ∧ cfg.w.streamIs cfg.setup.cl [.sync data]

/-- Subscriber 0 connected, `ws` about to set up subscriber 1, and a producing
task about to run the two core calls of `postMessages`. -/
def betweenStart : Config :=
  { w := connectedWorld,
    prod := { cur := none, jobs := [.add sampleMsg, .broadcastAdd sampleMsg [1, 0]] },
    setup := { cl := 1, pc := .create },
    closers := [] }

/-- The state of `betweenStart` once the record is stored. -/
def betweenStored : Config := (betweenStart.step .prod).getD betweenStart

/-- The setup of subscriber 1, the write loop of 0 taking a frame meanwhile. -/
def betweenSetup : List Tick := [.ws, .ws, .writer 0, .ws, .ws]

/-- The state once `ws` has returned for subscriber 1. -/
def betweenConnected : Config := (Config.run betweenSetup betweenStored).getD betweenStored

/-- The broadcast of the creation, the write loop of 1 taking its sync frame
and a task starting to close subscriber 0 meanwhile. -/
def betweenBroadcast : List Tick :=
  [.prod, .prod, .prod, .writer 1, .prod, .prod, .closeCall 0, .closeStep 0 .clear, .prod]

/-- The state once the broadcast has completed. -/
def betweenDone : Config :=
  (Config.run betweenBroadcast betweenConnected).getD betweenConnected

/-! ## Store lemmas -/

theorem lookup_mapDelete (id k : String) (l : List (String × message)) :
    lookup k (mapDelete id l) = if id = k then none else lookup k l := by
  induction l with
  | nil => simp [mapDelete, lookup]
  | cons kv rest ih =>
    obtain ⟨a, v⟩ := kv
    unfold mapDelete at ih ⊢
    by_cases ha : a = id
    · subst ha
      simp only [List.filter, ne_eq, not_true_eq_false, decide_False, ih, lookup]
      by_cases hk : a = k <;> simp [hk]
    · have : decide (a ≠ id) = true := by simp [ha]
      simp only [List.filter, this, lookup, ih]
      by_cases hk : a = k
      · subst hk
        have : ¬ id = a := fun h => ha h.symm
        simp [this]
      · simp [hk]

theorem lookup_add (ms : messages) (m : message) (k : String) :
    lookup k (ms.add m).items = if m.Sid = k then some m else lookup k ms.items := by
  simp only [messages.add, mapStore, lookup, lookup_mapDelete]
  by_cases h : m.Sid = k <;> simp [h]

theorem lookup_del (ms : messages) (id k : String) :
    lookup k (ms.del id).items = if id = k then none else lookup k ms.items := by
  unfold messages.del
  cases hl : lookup id ms.items with
  | some v => simp [lookup_mapDelete]
  | none =>
    by_cases h : id = k
    · subst h; simp [hl]
    · simp [h]

theorem lookup_apply (ms : messages) (o : StoreOp) (k : String) :
    lookup k (o.apply ms).items =
      if o.key = k then (match o with | .add m => some m | .del _ => none)
      else lookup k ms.items := by
  cases o with
  | add m => simp [StoreOp.apply, StoreOp.key, lookup_add]
  | del id => simp [StoreOp.apply, StoreOp.key, lookup_del]

theorem run_append (ops : List StoreOp) (o : StoreOp) (ms : messages) :
    messages.run (ops ++ [o]) ms = o.apply (messages.run ops ms) := by
  simp [messages.run, List.foldl_append]

theorem mostRecent_append (ops : List StoreOp) (o : StoreOp) (id : String) :
    mostRecent (ops ++ [o]) id = if o.key = id then some o else mostRecent ops id := by
  simp only [mostRecent, List.reverse_append, List.reverse_cons, List.reverse_nil,
    List.nil_append, List.singleton_append, List.find?_cons]
  by_cases h : o.key = id <;> simp [h]

theorem lookup_run (ops : List StoreOp) (id : String) :
    lookup id (messages.run ops messages.empty).items = expectedRecord ops id := by
  induction ops using List.reverseRecOn with
  | nil => simp [messages.run, messages.empty, lookup, expectedRecord, mostRecent]
  | append_singleton ops o ih =>
    rw [run_append, lookup_apply, expectedRecord, mostRecent_append]
    by_cases h : o.key = id
    · simp only [h, if_true]
      cases o <;> rfl
    · simp only [h, if_false]
      rw [ih, expectedRecord]

theorem keys_mapDelete_nodup (id : String) (l : List (String × message))
    (h : (keys l).Nodup) : (keys (mapDelete id l)).Nodup := by
  unfold keys mapDelete at *
  exact (List.filter_sublist l).map Prod.fst |>.nodup h

theorem not_mem_keys_mapDelete (id : String) (l : List (String × message)) :
    id ∉ keys (mapDelete id l) := by
  simp [keys, mapDelete]

theorem keys_apply_nodup (ms : messages) (o : StoreOp) (h : (keys ms.items).Nodup) :
    (keys (o.apply ms).items).Nodup := by
  cases o with
  | add m =>
    show (keys (mapStore m.Sid m ms.items)).Nodup
    unfold mapStore
    simp only [keys, List.map_cons, List.nodup_cons]
    exact ⟨not_mem_keys_mapDelete _ _, keys_mapDelete_nodup _ _ h⟩
  | del id =>
    show (keys (ms.del id).items).Nodup
    unfold messages.del
    cases lookup id ms.items with
    | some v => exact keys_mapDelete_nodup _ _ h
    | none => exact h

theorem keys_run_nodup (ops : List StoreOp) :
    (keys (messages.run ops messages.empty).items).Nodup := by
  induction ops using List.reverseRecOn with
  | nil => simp [messages.run, messages.empty, keys]
  | append_singleton ops o ih =>
    rw [run_append]
    exact keys_apply_nodup _ _ ih

theorem mem_iff_lookup (l : List (String × message)) (h : (keys l).Nodup)
    (id : String) (m : message) : (id, m) ∈ l ↔ lookup id l = some m := by
  induction l with
  | nil => simp [lookup]
  | cons kv rest ih =>
    obtain ⟨a, v⟩ := kv
    simp only [keys, List.map_cons, List.nodup_cons] at h
    have ih1 := ih h.2
    by_cases ha : a = id
    · subst ha
      have hnot : ∀ m1, (a, m1) ∉ rest := fun m1 hm =>
        h.1 (List.mem_map.mpr ⟨(a, m1), hm, rfl⟩)
      simp [lookup, hnot]
      exact eq_comm
    · have : ¬ id = a := fun h1 => ha h1.symm
      simp [lookup, ha, this, ih1]

theorem newSid_ne_empty (nanos : Int) : newSid nanos ≠ "" := by
  intro h
  have h1 := congrArg String.length h
  simp only [newSid, String.length_append] at h1
  have h2 : "MG-twilio-mock-".length = 15 := by decide
  have h3 : "".length = 0 := by decide
  omega

theorem mem_run_inv (ops : List StoreOp) (k : String) (m : message)
    (h : (k, m) ∈ (messages.run ops messages.empty).items) :
    k = m.Sid ∧ StoreOp.add m ∈ ops := by
  induction ops using List.reverseRecOn generalizing k m with
  | nil => simp [messages.run, messages.empty] at h
  | append_singleton ops o ih =>
    rw [run_append] at h
    cases o with
    | add r =>
      simp only [StoreOp.apply, messages.add, mapStore, List.mem_cons, Prod.mk.injEq,
        mapDelete, List.mem_filter] at h
      rcases h with ⟨h1, h2⟩ | ⟨h1, _⟩
      · subst h1 h2
        simp
      · have := ih k m h1
        exact ⟨this.1, List.mem_append_left _ this.2⟩
    | del id =>
      simp only [StoreOp.apply, messages.del] at h
      have hmem : (k, m) ∈ (messages.run ops messages.empty).items := by
        cases hl : lookup id (messages.run ops messages.empty).items with
        | some v =>
          rw [hl] at h
          simp only [mapDelete, List.mem_filter] at h
          exact h.1
        | none =>
          rw [hl] at h
          exact h
      have := ih k m hmem
      exact ⟨this.1, List.mem_append_left _ this.2⟩

/-! ## Channel, registry and broadcast lemmas -/

theorem trySend_sent (ch ch1 : Chan) (e : Envelope) (h : ch.trySend e = .sent ch1) :
    ch1 = { ch with buf := ch.buf ++ [e] } ∧ ch.closed = false ∧
      ch.buf.length < chanCap := by
  unfold Chan.trySend at h
  split at h
  · cases h
  · split at h
    · cases h
      refine ⟨rfl, ?_, by assumption⟩
      cases hc : ch.closed <;> simp_all
    · cases h

theorem trySend_room (ch : Chan) (e : Envelope) (hc : ch.closed = false)
    (hr : ch.buf.length < chanCap) :
    ch.trySend e = .sent { ch with buf := ch.buf ++ [e] } := by
  simp [Chan.trySend, hc, hr]

theorem trySend_full (ch : Chan) (e : Envelope) (hc : ch.closed = false)
    (hr : chanCap ≤ ch.buf.length) : ch.trySend e = .full := by
  have : ¬ ch.buf.length < chanCap := by omega
  simp [Chan.trySend, hc, this]

theorem isRange_spec (order items : List Ptr) (h : isRange order items = true) :
    order.Nodup ∧ ∀ q, q ∈ order ↔ q ∈ items := by
  simp only [isRange, Bool.and_eq_true, decide_eq_true_eq, List.all_eq_true] at h
  exact ⟨h.1.1, fun q => ⟨h.1.2 q, h.2 q⟩⟩

theorem broadcast_done (e : Envelope) (order : List Ptr) :
    ∀ (w w1 : World), order.Nodup → clients.broadcast e order w = .done w1 →
      w1.ms = w.ms ∧ w1.cs = w.cs ∧
      ∀ q, w1.heap q =
        if q ∈ order ∧ (w.heap q).isOpen = true then (w.heap q).enqueued e
        else w.heap q := by
  induction order with
  | nil =>
    intro w w1 _ h
    simp only [clients.broadcast, Outcome.done.injEq] at h
    subst h
    simp
  | cons c rest ih =>
    intro w w1 hnd h
    have hc : c ∉ rest := (List.nodup_cons.mp hnd).1
    have hr : rest.Nodup := (List.nodup_cons.mp hnd).2
    unfold clients.broadcast at h
    by_cases ho : (w.heap c).isOpen = true
    · simp only [ho, if_true] at h
      cases hs : (w.heap c).send.trySend e with
      | sent ch =>
        rw [hs] at h
        obtain ⟨h1, h2, h3⟩ := ih _ _ hr h
        obtain ⟨hch, _, _⟩ := trySend_sent _ _ _ hs
        refine ⟨h1, h2, fun q => ?_⟩
        rw [h3 q]
        by_cases hq : q = c
        · subst hq
          simp [hc, ho, World.setSend, World.setClient, client.enqueued, hch]
        · simp [hq, World.setSend, World.setClient]
      | full => rw [hs] at h; cases h
      | closedChan => rw [hs] at h; cases h
    · simp only [ho] at h
      obtain ⟨h1, h2, h3⟩ := ih _ _ hr h
      refine ⟨h1, h2, fun q => ?_⟩
      rw [h3 q]
      by_cases hq : q = c
      · subst hq
        simp [hc, ho]
      · simp [hq]

theorem broadcast_completes (e : Envelope) (order : List Ptr) :
    ∀ (w : World), order.Nodup →
      (∀ q, q ∈ order → (w.heap q).isOpen = true →
        (w.heap q).send.closed = false ∧ (w.heap q).send.buf.length < chanCap) →
      ∃ w1, clients.broadcast e order w = .done w1 := by
  induction order with
  | nil => intro w _ _; exact ⟨w, rfl⟩
  | cons c rest ih =>
    intro w hnd hroom
    have hc : c ∉ rest := (List.nodup_cons.mp hnd).1
    have hr : rest.Nodup := (List.nodup_cons.mp hnd).2
    unfold clients.broadcast
    by_cases ho : (w.heap c).isOpen = true
    · obtain ⟨h1, h2⟩ := hroom c (List.mem_cons_self _ _) ho
      simp only [ho, if_true, trySend_room _ e h1 h2]
      apply ih _ hr
      intro q hq hopen
      have hne : q ≠ c := fun h => hc (h ▸ hq)
      simp only [World.setSend, World.setClient, hne, if_false] at hopen ⊢
      exact hroom q (List.mem_cons_of_mem _ hq) hopen
    · simp only [ho]
      exact ih _ hr (fun q hq hopen => hroom q (List.mem_cons_of_mem _ hq) hopen)

theorem broadcast_blocks (e : Envelope) (s : Ptr) (post : List Ptr) (pre : List Ptr) :
    ∀ (w : World), (pre ++ s :: post).Nodup →
      (∀ q, q ∈ pre → (w.heap q).isOpen = true →
        (w.heap q).send.closed = false ∧ (w.heap q).send.buf.length < chanCap) →
      (w.heap s).isOpen = true → (w.heap s).send.closed = false →
      chanCap ≤ (w.heap s).send.buf.length →
      ∃ w1, clients.broadcast e pre w = .done w1 ∧
        clients.broadcast e (pre ++ s :: post) w = .blocked w1 s post := by
  induction pre with
  | nil =>
    intro w _ _ ho hc hfull
    refine ⟨w, rfl, ?_⟩
    simp [clients.broadcast, ho, trySend_full _ e hc hfull]
  | cons c rest ih =>
    intro w hnd hroom ho hcl hfull
    rw [List.cons_append] at hnd
    have hc : c ∉ rest ++ s :: post := (List.nodup_cons.mp hnd).1
    have hr : (rest ++ s :: post).Nodup := (List.nodup_cons.mp hnd).2
    have hcs : s ≠ c := fun h => hc (by simp [h])
    have hcr : ∀ q, q ∈ rest → q ≠ c := fun q hq h => hc (by simp [← h, hq])
    rw [List.cons_append]
    unfold clients.broadcast
    by_cases hoc : (w.heap c).isOpen = true
    · obtain ⟨h1, h2⟩ := hroom c (List.mem_cons_self _ _) hoc
      simp only [hoc, if_true, trySend_room _ e h1 h2]
      apply ih _ hr
      · intro q hq hopen
        have hne := hcr q hq
        simp only [World.setSend, World.setClient, hne, if_false] at hopen ⊢
        exact hroom q (List.mem_cons_of_mem _ hq) hopen
      · simpa [World.setSend, World.setClient, hcs] using ho
      · simpa [World.setSend, World.setClient, hcs] using hcl
      · simpa [World.setSend, World.setClient, hcs] using hfull
    · simp only [hoc]
      exact ih _ hr (fun q hq hopen => hroom q (List.mem_cons_of_mem _ hq) hopen) ho hcl hfull

theorem ws_fresh (cl : Ptr) (w : World) (hfresh : cl ∉ w.cs.items) :
    ws cl w = .done
      { w with cs := { w.cs with items := cl :: w.cs.items },
               heap := fun q =>
                 if q = cl then client.fresh.enqueued (.sync w.ms.items) else w.heap q } := by
  have h1 : (client.fresh.send.trySend (.sync w.ms.items)) =
      .sent { client.fresh.send with buf := client.fresh.send.buf ++ [.sync w.ms.items] } :=
    trySend_room _ _ rfl (by decide)
  simp only [ws, World.setClient, clients.register, hfresh, if_false, if_true, h1,
    World.setSend, Outcome.done.injEq]
  congr 1
  funext q
  by_cases hq : q = cl <;> simp [hq, client.enqueued]

/-! ## Every reachable state keeps open clients unclosed -/

theorem openInv_init : World.init.openInv := by
  intro c h
  simp [World.init, client.zero] at h

theorem openInv_wf (w : World) (h : w.openInv) : w.wf :=
  fun c ho => (h c ho).1

theorem openInv_live (w : World) (h : w.openInv) : w.live :=
  fun c _ ho => h c ho

theorem start_openInv (cl : Ptr) (jobs : List Job) : (Config.init cl jobs).openInv :=
  ⟨openInv_init, fun c h => by simp [Config.init] at h⟩

theorem openInv_of_flags (w w1 : World) (h : w.openInv)
    (hf : ∀ q, (w1.heap q).isOpen = true → (w.heap q).isOpen = true ∧
      (w1.heap q).send.closed = (w.heap q).send.closed ∧
      (w1.heap q).connClosed = (w.heap q).connClosed) : w1.openInv := by
  intro q hq
  obtain ⟨h1, h2, h3⟩ := hf q hq
  rw [h2, h3]
  exact h q h1

theorem openInv_setSend (w : World) (c : Ptr) (ch : Chan) (e : Envelope)
    (h : w.openInv) (hs : (w.heap c).send.trySend e = .sent ch) :
    (w.setSend c ch).openInv := by
  obtain ⟨hch, _, _⟩ := trySend_sent _ _ _ hs
  apply openInv_of_flags w _ h
  intro q hq
  by_cases hqc : q = c
  · subst hqc
    simpa [World.setSend, World.setClient, hch] using hq
  · simpa [World.setSend, World.setClient, hqc] using hq

theorem isOpen_setSend (w : World) (c q : Ptr) (ch : Chan) :
    ((w.setSend c ch).heap q).isOpen = (w.heap q).isOpen := by
  by_cases hqc : q = c
  · subst hqc
    simp [World.setSend, World.setClient]
  · simp [World.setSend, World.setClient, hqc]

theorem not_inUse (cfg : Config) (c : Ptr) (h : cfg.inUse c = false) :
    c ∉ cfg.w.cs.items ∧ ∀ pc, (c, pc) ∉ cfg.closers := by
  simp only [Config.inUse, Bool.or_eq_false_iff, decide_eq_false_iff_not,
    List.any_eq_false, decide_eq_true_eq] at h
  exact ⟨h.1, fun pc hmem => h.2 (c, pc) hmem rfl⟩

theorem stepProd_openInv (cfg cfg1 : Config) (h : cfg.openInv)
    (hstep : cfg.stepProd = .ok cfg1) : cfg1.openInv := by
  simp only [Config.stepProd] at hstep
  split at hstep
  · split at hstep
    · split at hstep
      · rename_i hs
        cases hstep
        exact ⟨openInv_setSend _ _ _ _ h.1 hs, fun c hc => by
          rw [isOpen_setSend]
          exact h.2 c hc⟩
      · cases hstep
      · cases hstep
    · split at hstep <;> (cases hstep; exact h)
  · split at hstep
    · cases hstep
    · cases hstep; exact h
    · cases hstep; exact h
    · simp only [Config.startBroadcast] at hstep
      split at hstep
      · cases hstep; exact h
      · cases hstep
    · simp only [Config.startBroadcast] at hstep
      split at hstep
      · cases hstep; exact h
      · cases hstep

theorem stepWs_openInv (cfg cfg1 : Config) (h : cfg.openInv)
    (hstep : cfg.stepWs = .ok cfg1) : cfg1.openInv := by
  simp only [Config.stepWs] at hstep
  split at hstep
  · split at hstep
    · cases hstep
    · rename_i hfree
      have hfree1 := not_inUse cfg cfg.setup.cl (by simpa using hfree)
      cases hstep
      refine ⟨fun q hq => ?_, fun c hc => ?_⟩
      · by_cases hqc : q = cfg.setup.cl
        · simp [World.setClient, hqc, client.fresh]
        · simp only [World.setClient, hqc, if_false] at hq ⊢
          exact h.1 q hq
      · have hne : c ≠ cfg.setup.cl := by
          intro hceq
          rcases hc with hc | hc
          · exact hfree1.2 _ (hceq ▸ hc)
          · exact hfree1.2 _ (hceq ▸ hc)
        simp only [World.setClient, hne, if_false]
        exact h.2 c hc
  · split at hstep
    · cases hstep
    · cases hstep; exact h
  · cases hstep; exact h
  · split at hstep
    · rename_i hs
      cases hstep
      exact ⟨openInv_setSend _ _ _ _ h.1 hs, fun c hc => by
        rw [isOpen_setSend]
        exact h.2 c hc⟩
    · cases hstep
    · cases hstep
  · cases hstep

theorem stepWriter_openInv (cfg cfg1 : Config) (c : Ptr) (h : cfg.openInv)
    (hstep : cfg.stepWriter c = .ok cfg1) : cfg1.openInv := by
  simp only [Config.stepWriter] at hstep
  split at hstep
  · split at hstep <;> cases hstep
  · split at hstep
    · cases hstep
    · cases hstep
      refine ⟨openInv_of_flags _ _ h.1 (fun q hq => ?_), fun q hq => ?_⟩
      · by_cases hqc : q = c
        · subst hqc
          simpa [World.setClient, client.afterWrite] using hq
        · simpa [World.setClient, hqc] using hq
      · by_cases hqc : q = c
        · subst hqc
          simpa [World.setClient, client.afterWrite] using h.2 q hq
        · simpa [World.setClient, hqc] using h.2 q hq

theorem stepClose_openInv (cfg cfg1 : Config) (c : Ptr) (pc : ClosePc) (h : cfg.openInv)
    (hstep : cfg.stepClose c pc = .ok cfg1) : cfg1.openInv := by
  simp only [Config.stepClose] at hstep
  split at hstep
  · rename_i hmem
    cases pc with
    | clear =>
      simp only at hstep
      cases hstep
      refine ⟨openInv_of_flags _ _ h.1 (fun q hq => ?_), fun q hq => ?_⟩
      · by_cases hqc : q = c
        · simp [World.setClient, hqc, client.cleared] at hq
        · simpa [World.setClient, hqc] using hq
      · by_cases hqc : q = c
        · simp [World.setClient, hqc, client.cleared]
        · simp only [World.setClient, hqc, if_false]
          apply h.2 q
          rcases hq with hq | hq
          · simp only [List.mem_cons, Prod.mk.injEq, hqc, false_and, false_or] at hq
            exact Or.inl (List.mem_of_mem_erase hq)
          · simp only [List.mem_cons, Prod.mk.injEq, hqc, false_and, false_or] at hq
            exact Or.inr (List.mem_of_mem_erase hq)
    | closeSend =>
      simp only at hstep
      split at hstep
      · cases hstep
      · cases hstep
        have hc : (cfg.w.heap c).isOpen = false := h.2 c (Or.inl hmem)
        refine ⟨openInv_of_flags _ _ h.1 (fun q hq => ?_), fun q hq => ?_⟩
        · by_cases hqc : q = c
          · simp [World.setClient, hqc, client.sendClosed, hc] at hq
          · simpa [World.setClient, hqc] using hq
        · by_cases hqc : q = c
          · simp [World.setClient, hqc, client.sendClosed, hc]
          · simp only [World.setClient, hqc, if_false]
            apply h.2 q
            rcases hq with hq | hq
            · simp only [List.mem_cons, Prod.mk.injEq, hqc, false_and, false_or] at hq
              exact Or.inl (List.mem_of_mem_erase hq)
            · simp only [List.mem_cons, Prod.mk.injEq, hqc, false_and, false_or] at hq
              exact Or.inr (List.mem_of_mem_erase hq)
    | closeConn =>
      simp only at hstep
      cases hstep
      have hc : (cfg.w.heap c).isOpen = false := h.2 c (Or.inr hmem)
      refine ⟨openInv_of_flags _ _ h.1 (fun q hq => ?_), fun q hq => ?_⟩
      · by_cases hqc : q = c
        · simp [World.setClient, hqc, client.connShut, hc] at hq
        · simpa [World.setClient, hqc] using hq
      · by_cases hqc : q = c
        · simp [World.setClient, hqc, client.connShut, hc]
        · simp only [World.setClient, hqc, if_false]
          apply h.2 q
          rcases hq with hq | hq
          · simp only [List.mem_cons, Prod.mk.injEq, reduceCtorEq, and_false, false_or] at hq
            exact Or.inl (List.mem_of_mem_erase hq)
          · simp only [List.mem_cons, Prod.mk.injEq, reduceCtorEq, and_false, false_or] at hq
            exact Or.inr (List.mem_of_mem_erase hq)
    | unregister =>
      simp only at hstep
      split at hstep
      · cases hstep
      · cases hstep
        refine ⟨h.1, fun q hq => h.2 q ?_⟩
        rcases hq with hq | hq
        · exact Or.inl (List.mem_of_mem_erase hq)
        · exact Or.inr (List.mem_of_mem_erase hq)
  · cases hstep

theorem step_openInv (cfg cfg1 : Config) (t : Tick) (h : cfg.openInv)
    (hstep : cfg.step t = .ok cfg1) : cfg1.openInv := by
  cases t with
  | prod => exact stepProd_openInv cfg cfg1 h hstep
  | ws => exact stepWs_openInv cfg cfg1 h hstep
  | writer c => exact stepWriter_openInv cfg cfg1 c h hstep
  | closeCall c =>
    simp only [Config.step, Config.stepCloseCall, Result.ok.injEq] at hstep
    subst hstep
    refine ⟨h.1, fun q hq => h.2 q ?_⟩
    rcases hq with hq | hq
    · simp only [List.mem_cons, Prod.mk.injEq] at hq
      rcases hq with ⟨_, hq⟩ | hq
      · split at hq <;> cases hq
      · exact Or.inl hq
    · simp only [List.mem_cons, Prod.mk.injEq] at hq
      rcases hq with ⟨_, hq⟩ | hq
      · split at hq <;> cases hq
      · exact Or.inr hq
  | closeStep c pc => exact stepClose_openInv cfg cfg1 c pc h hstep

theorem run_openInv (sched : List Tick) :
    ∀ (cfg cfg1 : Config), cfg.openInv → Config.run sched cfg = .ok cfg1 →
      cfg1.openInv := by
  induction sched with
  | nil =>
    intro cfg cfg1 h hrun
    simp only [Config.run, Result.ok.injEq] at hrun
    exact hrun ▸ h
  | cons t ts ih =>
    intro cfg cfg1 h hrun
    simp only [Config.run] at hrun
    cases hstep : cfg.step t with
    | ok cfg2 =>
      rw [hstep] at hrun
      exact ih cfg2 cfg1 (step_openInv cfg cfg2 t h hstep) hrun
    | blocked => rw [hstep] at hrun; cases hrun
    | invalid => rw [hstep] at hrun; cases hrun
    | panic => rw [hstep] at hrun; cases hrun

/-! ## The calls run alone agree with the statement-level runs -/

theorem run_replicate_succ (n : Nat) (cfg cfg1 : Config) (r : Result)
    (h1 : cfg.step .prod = .ok cfg1) (h2 : Config.run (List.replicate n .prod) cfg1 = r) :
    Config.run (List.replicate (n + 1) .prod) cfg = r := by
  simp [List.replicate_succ, Config.run, h1, h2]

/-- What the producing task reaches when it runs the loop of a broadcast
alone, against what `clients.broadcast` returns. -/
theorem broadcast_refines (e : Envelope) (order : List Ptr) :
    ∀ (cfg : Config), cfg.prod.cur = some { env := e, todo := order, sending := none } →
      ∃ n, match clients.broadcast e order cfg.w with
        | .done w1 =>
          Config.run (List.replicate n .prod) cfg =
            .ok { cfg with w := w1, prod := { cfg.prod with cur := none } }
        | .blocked w1 c rest =>
          Config.run (List.replicate n .prod) cfg =
            .ok { cfg with w := w1, prod := { cfg.prod with
                    cur := some { env := e, todo := rest, sending := some c } } } ∧
          (Config.run (List.replicate (n + 1) .prod) cfg).isBlocked = true
        | .panic => (Config.run (List.replicate n .prod) cfg).isPanic = true := by
  induction order with
  | nil =>
    intro cfg hcur
    refine ⟨1, ?_⟩
    simp [clients.broadcast, Config.run, Config.step, Config.stepProd, hcur]
  | cons c rest ih =>
    intro cfg hcur
    by_cases ho : (cfg.w.heap c).isOpen = true
    · have hstep1 : cfg.step .prod = .ok { cfg with prod := { cfg.prod with
          cur := some { env := e, todo := rest, sending := some c } } } := by
        simp [Config.step, Config.stepProd, hcur, ho]
      cases hs : (cfg.w.heap c).send.trySend e with
      | sent ch =>
        have hstep2 : Config.step { cfg with prod := { cfg.prod with
            cur := some { env := e, todo := rest, sending := some c } } } .prod =
            .ok { cfg with w := cfg.w.setSend c ch, prod := { cfg.prod with
              cur := some { env := e, todo := rest, sending := none } } } := by
          simp [Config.step, Config.stepProd, hs]
        obtain ⟨n, hn⟩ := ih { cfg with w := cfg.w.setSend c ch, prod := { cfg.prod with
          cur := some { env := e, todo := rest, sending := none } } } rfl
        refine ⟨n + 1 + 1, ?_⟩
        simp only [clients.broadcast, ho, if_true, hs]
        simp only at hn
        cases hb : clients.broadcast e rest (cfg.w.setSend c ch) with
        | done w1 =>
          rw [hb] at hn
          exact run_replicate_succ _ _ _ _ hstep1 (run_replicate_succ _ _ _ _ hstep2 hn)
        | blocked w1 c1 rest1 =>
          rw [hb] at hn
          exact ⟨run_replicate_succ _ _ _ _ hstep1 (run_replicate_succ _ _ _ _ hstep2 hn.1),
            by
              rw [run_replicate_succ _ _ _ _ hstep1 rfl,
                run_replicate_succ _ _ _ _ hstep2 rfl]
              exact hn.2⟩
        | panic =>
          rw [hb] at hn
          rw [run_replicate_succ _ _ _ _ hstep1 rfl, run_replicate_succ _ _ _ _ hstep2 rfl]
          exact hn
      | full =>
        refine ⟨1, ?_⟩
        simp only [clients.broadcast, ho, if_true, hs]
        refine ⟨run_replicate_succ 0 _ _ _ hstep1 rfl, ?_⟩
        rw [run_replicate_succ 1 _ _ _ hstep1 rfl]
        simp [Config.run, Config.step, Config.stepProd, hs, Result.isBlocked]
      | closedChan =>
        refine ⟨2, ?_⟩
        simp only [clients.broadcast, ho, if_true, hs]
        rw [run_replicate_succ 1 _ _ _ hstep1 rfl]
        simp [Config.run, Config.step, Config.stepProd, hs, Result.isPanic]
    · have hstep1 : cfg.step .prod = .ok { cfg with prod := { cfg.prod with
          cur := some { env := e, todo := rest, sending := none } } } := by
        simp [Config.step, Config.stepProd, hcur, ho]
      obtain ⟨n, hn⟩ := ih { cfg with prod := { cfg.prod with
        cur := some { env := e, todo := rest, sending := none } } } rfl
      refine ⟨n + 1, ?_⟩
      simp only [clients.broadcast, ho]
      simp only at hn
      cases hb : clients.broadcast e rest cfg.w with
      | done w1 =>
        rw [hb] at hn
        exact run_replicate_succ _ _ _ _ hstep1 hn
      | blocked w1 c1 rest1 =>
        rw [hb] at hn
        exact ⟨run_replicate_succ _ _ _ _ hstep1 hn.1, by
          rw [run_replicate_succ _ _ _ _ hstep1 rfl]
          exact hn.2⟩
      | panic =>
        rw [hb] at hn
        rw [run_replicate_succ _ _ _ _ hstep1 rfl]
        exact hn

/-- The two core calls of `postMessages` run alone by the producing task,
against what `postMessages` returns. -/
theorem postMessages_refines (cfg : Config) (m : message) (order : List Ptr)
    (js : List Job) (hcur : cfg.prod.cur = none)
    (hjobs : cfg.prod.jobs = .add m :: .broadcastAdd m order :: js)
    (hr : isRange order cfg.w.cs.items = true) :
    ∃ n, match postMessages order m cfg.w with
      | .done w1 =>
        Config.run (List.replicate n .prod) cfg =
          .ok { cfg with w := w1, prod := { cur := none, jobs := js } }
      | .blocked w1 c rest =>
        Config.run (List.replicate n .prod) cfg =
          .ok { cfg with w := w1, prod :=
                  { cur := some { env := .add m.Sid m, todo := rest, sending := some c },
                    jobs := js } } ∧
        (Config.run (List.replicate (n + 1) .prod) cfg).isBlocked = true
      | .panic => (Config.run (List.replicate n .prod) cfg).isPanic = true := by
  have hstep1 : cfg.step .prod = .ok
      { cfg with w := { cfg.w with ms := cfg.w.ms.add m },
                 prod := { cur := none, jobs := .broadcastAdd m order :: js } } := by
    simp [Config.step, Config.stepProd, hcur, hjobs]
  have hstep2 : Config.step
      { cfg with w := { cfg.w with ms := cfg.w.ms.add m },
                 prod := { cur := none, jobs := .broadcastAdd m order :: js } } .prod = .ok
      { cfg with w := { cfg.w with ms := cfg.w.ms.add m },
                 prod := { cur := some { env := .add m.Sid m, todo := order, sending := none },
                           jobs := js } } := by
    simp [Config.step, Config.stepProd, Config.startBroadcast, hr]
  obtain ⟨n, hn⟩ := broadcast_refines (.add m.Sid m) order
    { cfg with w := { cfg.w with ms := cfg.w.ms.add m },
               prod := { cur := some { env := .add m.Sid m, todo := order, sending := none },
                         jobs := js } } rfl
  refine ⟨n + 1 + 1, ?_⟩
  simp only [postMessages, clients.broadcastAdd]
  simp only at hn
  cases hb : clients.broadcast (.add m.Sid m) order { cfg.w with ms := cfg.w.ms.add m } with
  | done w1 =>
    rw [hb] at hn
    exact run_replicate_succ _ _ _ _ hstep1 (run_replicate_succ _ _ _ _ hstep2 hn)
  | blocked w1 c1 rest1 =>
    rw [hb] at hn
    exact ⟨run_replicate_succ _ _ _ _ hstep1 (run_replicate_succ _ _ _ _ hstep2 hn.1), by
      rw [run_replicate_succ _ _ _ _ hstep1 rfl, run_replicate_succ _ _ _ _ hstep2 rfl]
      exact hn.2⟩
  | panic =>
    rw [hb] at hn
    rw [run_replicate_succ _ _ _ _ hstep1 rfl, run_replicate_succ _ _ _ _ hstep2 rfl]
    exact hn

/-- The four statements of `ws` run alone, against what `ws` returns. -/
theorem ws_refines (cfg : Config) (hpc : cfg.setup.pc = .create)
    (hcur : cfg.prod.cur = none) (hfresh : cfg.inUse cfg.setup.cl = false) :
    ∃ w1, ws cfg.setup.cl cfg.w = .done w1 ∧
      Config.run [.ws, .ws, .ws, .ws] cfg =
        .ok { cfg with w := w1, setup := { cfg.setup with pc := .returned } } := by
  have hnot : cfg.setup.cl ∉ cfg.w.cs.items := (not_inUse cfg _ hfresh).1
  refine ⟨_, ws_fresh _ _ hnot, ?_⟩
  have h1 : (client.fresh.send.trySend (.sync cfg.w.ms.items)) =
      .sent { client.fresh.send with buf := client.fresh.send.buf ++ [.sync cfg.w.ms.items] } :=
    trySend_room _ _ rfl (by decide)
  simp only [Config.run, Config.step, Config.stepWs, hpc, hfresh, hnot, if_false, hcur,
    World.setClient, if_true, h1, World.setSend, clients.register, Result.ok.injEq,
    Bool.false_eq_true]
  congr 1
  congr 1
  funext q
  by_cases hq : q = cfg.setup.cl <;> simp [hq, client.enqueued]

/-- The statements of one call of `close` run alone, against what
`client.close` returns. -/
theorem close_refines (cfg : Config) (c : Ptr) (hcur : cfg.prod.cur = none) :
    match client.close c cfg.w with
    | some w1 =>
      Config.run (closeTicks c (cfg.w.heap c).isOpen) cfg = .ok { cfg with w := w1 }
    | none => (Config.run (closeTicks c (cfg.w.heap c).isOpen) cfg).isPanic = true := by
  by_cases ho : (cfg.w.heap c).isOpen = true
  · by_cases hc : (cfg.w.heap c).send.closed = true
    · simp [client.close, client.closeBody, ho, hc, closeTicks, Config.run, Config.step,
        Config.stepCloseCall, Config.stepClose, World.setClient, client.cleared,
        Result.isPanic]
    · simp only [client.close, client.closeBody, ho, hc, closeTicks, Config.run, Config.step,
        Config.stepCloseCall, Config.stepClose, World.setClient, client.cleared,
        client.sendClosed, client.connShut, hcur, if_true, List.mem_cons, true_or,
        List.erase_cons_head, Option.map_some', Bool.false_eq_true, if_false,
        Result.ok.injEq]
      congr 1
      congr 1
      funext q
      by_cases hq : q = c <;> simp [hq]
  · simp [client.close, client.closeBody, ho, closeTicks, Config.run, Config.step,
      Config.stepCloseCall, Config.stepClose, hcur]

/-- Two calls of `close` on subscriber 0 that both pass the test
`if c.isOpen` before either clears the flag: the second `close(c.send)` finds
the channel closed and the process crashes. -/
theorem concurrent_close_panics :
    (Config.run [.closeCall 0, .closeCall 0, .closeStep 0 .clear, .closeStep 0 .closeSend,
      .closeStep 0 .clear, .closeStep 0 .closeSend] closeRaceStart).isPanic = true := by
  rfl

/-! ## Claims about the store -/

/-- C1: after any sequence of add and del operations on the empty store, the
item map holds under each identifier exactly the record of the most recent
operation on it when that was an add, and nothing when it was a del or when
there was none; no identifier is listed twice; and that item map is what `ws`
serialises into the sync envelope of a subscriber connecting then. -/
theorem store_holds_last_added (ops : List StoreOp) :
    (keys (messages.run ops messages.empty).items).Nodup ∧
    (∀ id, lookup id (messages.run ops messages.empty).items = expectedRecord ops id) ∧
    (∀ id m, (id, m) ∈ (messages.run ops messages.empty).items ↔
      expectedRecord ops id = some m) ∧
    (∀ cl, (ws cl { World.init with ms := messages.run ops messages.empty }).queue cl =
      some [.sync (messages.run ops messages.empty).items]) := by
  refine ⟨keys_run_nodup ops, lookup_run ops, ?_, ?_⟩
  · intro id m
    rw [mem_iff_lookup _ (keys_run_nodup ops), lookup_run]
  · intro cl
    rw [ws_fresh cl _ (by simp [World.init])]
    simp [Outcome.queue, Outcome.world, World.queue, client.enqueued, client.fresh]

/-- C9, the claim as stated fails: adding a record whose `Sid` is the empty
string to the empty store leaves the empty string as a key of the map. -/
theorem store_empty_key_present :
    "" ∈ keys (messages.run [StoreOp.add emptySidMsg] messages.empty).items := by
  simp [messages.run, StoreOp.apply, messages.add, mapStore, keys, emptySidMsg, sampleMsg]

/-- C9 amended: in every store reached from the empty store by add and del
operations, every key equals the `Sid` of the record stored under it, and it
is non-empty as soon as every added record has a non-empty `Sid`. -/
theorem store_key_is_sid (ops : List StoreOp) (k : String) (m : message)
    (h : (k, m) ∈ (messages.run ops messages.empty).items) :
    k = m.Sid ∧ ((∀ r, StoreOp.add r ∈ ops → r.Sid ≠ "") → k ≠ "") := by
  have hinv := mem_run_inv ops k m h
  refine ⟨hinv.1, fun hne => ?_⟩
  rw [hinv.1]
  exact hne m hinv.2

/-- Witness for `store_key_is_sid`: a record as `postMessages` builds it,
stored under its identifier, which is not empty. -/
theorem store_key_is_sid_witness :
    newSid 5 = (newMessage "d" 5 "AC1" "+100" "+200" "hi" "" "").Sid ∧ newSid 5 ≠ "" :=
  have h := store_key_is_sid [StoreOp.add (newMessage "d" 5 "AC1" "+100" "+200" "hi" "" "")]
    (newSid 5) (newMessage "d" 5 "AC1" "+100" "+200" "hi" "" "")
    (by simp [messages.run, StoreOp.apply, messages.add, mapStore, newMessage])
  ⟨h.1, h.2 (fun r1 hr => by
    simp only [List.mem_singleton, StoreOp.add.injEq] at hr
    rw [hr]
    exact newSid_ne_empty 5)⟩

/-! ## Claims about the read loop -/

/-- C8: a frame that `json.Unmarshal` rejects, or that decodes to an action
other than the exact string `remove`, is skipped: the pass of the loop body
returns with the whole state (store, registry, every client struct with its
queue and open flag) as it was, and the loop goes on with the next frame from
that same state. -/
theorem reader_skips_frame (unmarshal : List Nat → Option (String × String))
    (c : Ptr) (order : List Ptr) (msg : List Nat)
    (rest : List (Option (List Nat × List Ptr))) (w : World)
    (h : unmarshal msg = none ∨
      ∃ action id, unmarshal msg = some (action, id) ∧ action ≠ "remove") :
    client.readerBody unmarshal order msg w = .done w ∧
    client.reader unmarshal c (some (msg, order) :: rest) w =
      client.reader unmarshal c rest w := by
  have hb : client.readerBody unmarshal order msg w = .done w := by
    rcases h with h | ⟨action, id, h, hne⟩
    · simp [client.readerBody, h]
    · simp [client.readerBody, h, hne]
  refine ⟨hb, ?_⟩
  simp [client.reader, hb]

/-- Witness for `reader_skips_frame`: an undecodable frame and a frame with
action `ping`. -/
theorem reader_skips_frame_witness :
    (client.readerBody sampleUnmarshal [0] [7] oneClientWorld = .done oneClientWorld ∧
      client.reader sampleUnmarshal 0 [some ([7], [0])] oneClientWorld =
        client.reader sampleUnmarshal 0 [] oneClientWorld) ∧
    (client.readerBody sampleUnmarshal [0] [2] oneClientWorld = .done oneClientWorld ∧
      client.reader sampleUnmarshal 0 [some ([2], [0])] oneClientWorld =
        client.reader sampleUnmarshal 0 [] oneClientWorld) :=
  ⟨reader_skips_frame sampleUnmarshal 0 [0] [7] [] oneClientWorld (Or.inl (by decide)),
   reader_skips_frame sampleUnmarshal 0 [0] [2] [] oneClientWorld
    (Or.inr ⟨"ping", "", by decide, by decide⟩)⟩

theorem broadcast_world (e : Envelope) (order : List Ptr) :
    ∀ (w w1 : World), (clients.broadcast e order w).world = some w1 →
      w1.ms = w.ms ∧ w1.cs = w.cs := by
  induction order with
  | nil =>
    intro w w1 h
    simp only [clients.broadcast, Outcome.world, Option.some.injEq] at h
    subst h
    exact ⟨rfl, rfl⟩
  | cons c rest ih =>
    intro w w1 h
    unfold clients.broadcast at h
    by_cases ho : (w.heap c).isOpen = true
    · simp only [ho, if_true] at h
      cases hs : (w.heap c).send.trySend e with
      | sent ch =>
        rw [hs] at h
        exact ih (w.setSend c ch) w1 h
      | full =>
        rw [hs] at h
        simp only [Outcome.world, Option.some.injEq] at h
        subst h
        exact ⟨rfl, rfl⟩
      | closedChan =>
        rw [hs] at h
        simp [Outcome.world] at h
    · simp only [ho] at h
      exact ih w w1 h

/-- C3, the claim as stated fails: with subscriber 0 saturated and not drained
and subscriber 1 registered and open, the handling of the frame that decodes
to action `remove` with id `M1` does not return; it waits on 0, and no `del`
envelope has been put on the queue of 1. -/
theorem remove_stalls_on_saturated :
    (client.readerBody sampleUnmarshal [0, 1] [1] saturatedWorld).isDone = false ∧
    (client.readerBody sampleUnmarshal [0, 1] [1] saturatedWorld).waitingOn = some 0 ∧
    (client.readerBody sampleUnmarshal [0, 1] [1] saturatedWorld).queue 1 = some [] ∧
    (client.readerBody sampleUnmarshal [0, 1] [1] saturatedWorld).isOpen 1 = some true ∧
    (client.readerBody sampleUnmarshal [0, 1] [1] saturatedWorld).registered =
      some [0, 1] := by
  refine ⟨?_, ?_, ?_, ?_, ?_⟩ <;> rfl

/-- C3 amended: when the read loop handles a frame that decodes to action
`remove` with id `X`, no other task running in between, then in the state the
handling returns or waits in `X` is absent from the store and the registry is
as before.  When every registered open subscriber has room in its queue, the
handling returns and the envelope `del X` has been appended to the queue of
every registered subscriber whose open flag is set (the sender included when
it is one of them).  When its range reaches a registered open subscriber `s`
whose queue is full, having met only subscribers with room before, the
handling waits in the send on `s`: `s` and the subscribers after it are
untouched, and the envelope has been appended to the queues of the open
subscribers visited before. -/
theorem reader_remove (unmarshal : List Nat → Option (String × String))
    (order : List Ptr) (msg : List Nat) (X : String) (w : World)
    (hdec : unmarshal msg = some ("remove", X))
    (hrange : isRange order w.cs.items = true) (hwf : w.wf) :
    (∀ w1, (client.readerBody unmarshal order msg w).world = some w1 →
      lookup X w1.ms.items = none ∧ w1.cs = w.cs) ∧
    (w.room → ∃ w1, client.readerBody unmarshal order msg w = .done w1 ∧
      ∀ q, q ∈ w.cs.items → (w.heap q).isOpen = true →
        w1.queue q = w.queue q ++ [Envelope.del X]) ∧
    (∀ pre s post, order = pre ++ s :: post →
      (∀ q, q ∈ pre → (w.heap q).isOpen = true → (w.queue q).length < chanCap) →
      (w.heap s).isOpen = true → chanCap ≤ (w.queue s).length →
      ∃ w1, client.readerBody unmarshal order msg w = .blocked w1 s post ∧
        w1.heap s = w.heap s ∧ (∀ q, q ∈ post → w1.heap q = w.heap q) ∧
        (∀ q, q ∈ pre → (w.heap q).isOpen = true →
          w1.queue q = w.queue q ++ [Envelope.del X])) := by
  obtain ⟨hnd, hmem⟩ := isRange_spec _ _ hrange
  have hbody : client.readerBody unmarshal order msg w =
      clients.broadcast (.del X) order { w with ms := w.ms.del X } := by
    simp [client.readerBody, hdec, clients.broadcastDel]
  rw [hbody]
  refine ⟨?_, ?_, ?_⟩
  · intro w1 h
    obtain ⟨h1, h2⟩ := broadcast_world _ _ _ _ h
    refine ⟨?_, h2⟩
    rw [h1]
    simp [lookup_del]
  · intro hroom
    obtain ⟨w1, h1⟩ := broadcast_completes (.del X) order { w with ms := w.ms.del X } hnd
      (fun q hq ho => ⟨hwf q ho, hroom q ((hmem q).mp hq) ho⟩)
    obtain ⟨_, _, h3⟩ := broadcast_done _ _ _ _ hnd h1
    refine ⟨w1, h1, fun q hq ho => ?_⟩
    have hq1 : q ∈ order := (hmem q).mpr hq
    simp only [World.queue, h3 q]
    simp [hq1, ho, client.enqueued]
  · intro pre s post hord hpre hs hfull
    subst hord
    obtain ⟨w1, h1, h2⟩ := broadcast_blocks (.del X) s post pre { w with ms := w.ms.del X }
      hnd (fun q hq ho => ⟨hwf q ho, hpre q hq ho⟩) hs (hwf s hs) hfull
    have hndpre : pre.Nodup := (List.nodup_append.mp hnd).1
    have hdisj : ∀ q, q ∈ pre → q ∉ s :: post := fun q hq hq1 =>
      (List.nodup_append.mp hnd).2.2 hq hq1
    obtain ⟨_, _, h5⟩ := broadcast_done _ _ _ _ hndpre h1
    refine ⟨w1, h2, ?_, ?_, ?_⟩
    · rw [h5 s]
      have : s ∉ pre := fun h => hdisj s h (by simp)
      simp [this]
    · intro q hq
      rw [h5 q]
      have : q ∉ pre := fun h => hdisj q h (by simp [hq])
      simp [this]
    · intro q hq ho
      simp only [World.queue, h5 q]
      simp [hq, ho, client.enqueued]

/-- Witness for `reader_remove`: two registered open subscribers with room,
one with a frame queued, `M1` stored, and the frame that decodes to action
`remove` with id `M1`. -/
theorem reader_remove_witness :
    ∃ w1, client.readerBody sampleUnmarshal [1, 0] [1] pairWorld = .done w1 ∧
      ∀ q, q ∈ pairWorld.cs.items → (pairWorld.heap q).isOpen = true →
        w1.queue q = pairWorld.queue q ++ [Envelope.del "M1"] :=
  (reader_remove sampleUnmarshal [1, 0] [1] "M1" pairWorld (by decide) (by decide)
    (fun q _ => by
      by_cases hq : q = 0
      · subst hq; rfl
      · simp [pairWorld, hq, client.fresh])).2.1
    (fun q hq _ => by
      simp only [pairWorld, List.mem_cons, List.mem_singleton, List.not_mem_nil,
        or_false] at hq
      rcases hq with hq | hq <;> subst hq <;> decide)

/-! ## Claims about close -/

theorem close_open (c : Ptr) (w : World) (ho : (w.heap c).isOpen = true)
    (hc : (w.heap c).send.closed = false) :
    client.close c w = some
      { w with heap := fun q => if q = c then (w.heap c).closed else w.heap q,
               cs := w.cs.unregister c } := by
  simp [client.close, client.closeBody, ho, hc, World.setClient, client.closed]

theorem close_not_open (c : Ptr) (w : World) (ho : (w.heap c).isOpen = false) :
    client.close c w = some { w with cs := w.cs.unregister c } := by
  simp [client.close, client.closeBody, ho]

theorem unregister_absent (cs : clients) (c : Ptr) (h : c ∉ cs.items) :
    cs.unregister c = { cs with unregisterLog := cs.unregisterLog ++ [c] } := by
  simp [clients.unregister, h]

theorem closeTimes_closed (c : Ptr) (k : Nat) :
    ∀ (w : World), (w.heap c).isOpen = false → c ∉ w.cs.items →
      closeTimes c k w = some
        { w with cs := { w.cs with
            unregisterLog := w.cs.unregisterLog ++ List.replicate k c } } := by
  induction k with
  | zero => intro w _ _; simp [closeTimes]
  | succ k ih =>
    intro w ho hreg
    simp only [closeTimes, close_not_open c w ho, Option.some_bind]
    have h1 := ih { w with cs := w.cs.unregister c } ho
      (by simpa [unregister_absent _ _ hreg] using hreg)
    rw [h1]
    simp [unregister_absent _ _ hreg, List.replicate_succ]

/-- C4, the claim as stated fails: two calls of `close` on the registered open
subscriber 0 call `unregister` twice, not once. -/
theorem close_twice_unregisters_twice :
    unregisterLogOf (closeTimes 0 2 connectedWorld) = some [0, 0] := by
  decide

/-- C4 amended: `k ≥ 1` calls of `close`, one after the other, on a registered
open subscriber make `k` calls of `unregister`, one per call of `close`; the
first removes the subscriber and the others find it absent, so the registry
ends as it was without that subscriber; the guarded part runs once: afterwards
the open flag is cleared, the queue and the connection are closed, and every
other client struct is untouched. -/
theorem close_repeated (c : Ptr) (k : Nat) (w : World) (hk : 1 ≤ k)
    (hreg : c ∈ w.cs.items) (ho : (w.heap c).isOpen = true) (hwf : w.wf) :
    ∃ w1, closeTimes c k w = some w1 ∧
      w1.cs.unregisterLog = w.cs.unregisterLog ++ List.replicate k c ∧
      w1.cs.items = w.cs.items.filter (fun q => decide (q ≠ c)) ∧
      c ∉ w1.cs.items ∧
      (w1.heap c).isOpen = false ∧
      w1.heap c = (w.heap c).closed ∧
      (∀ q, q ≠ c → w1.heap q = w.heap q) ∧
      w1.ms = w.ms := by
  obtain ⟨j, rfl⟩ : ∃ j, k = j + 1 := ⟨k - 1, by omega⟩
  have hnot : c ∉ (w.cs.unregister c).items := by
    simp [clients.unregister, hreg]
  simp only [closeTimes, close_open c w ho (hwf c ho), Option.some_bind]
  have h1 := closeTimes_closed c j
    { w with heap := fun q => if q = c then (w.heap c).closed else w.heap q,
             cs := w.cs.unregister c } (by simp [client.closed]) hnot
  rw [h1]
  refine ⟨_, rfl, ?_, ?_, ?_, ?_, ?_, ?_, rfl⟩
  · simp [clients.unregister, hreg, List.replicate_succ]
  · simp [clients.unregister, hreg]
  · simpa using hnot
  · simp [client.closed]
  · simp
  · intro q hq
    simp [hq]

/-- Witness for `close_repeated`: three calls on the subscriber `ws` has just
set up. -/
theorem close_repeated_witness :
    ∃ w1, closeTimes 0 3 connectedWorld = some w1 ∧
      w1.cs.unregisterLog = connectedWorld.cs.unregisterLog ++ List.replicate 3 0 ∧
      w1.cs.items = connectedWorld.cs.items.filter (fun q => decide (q ≠ 0)) ∧
      0 ∉ w1.cs.items ∧
      (w1.heap 0).isOpen = false ∧
      w1.heap 0 = (connectedWorld.heap 0).closed ∧
      (∀ q, q ≠ 0 → w1.heap q = connectedWorld.heap q) ∧
      w1.ms = connectedWorld.ms :=
  close_repeated 0 3 connectedWorld (by decide) (by decide) rfl
    (fun q h => by
      by_cases hq : q = 0
      · subst hq; rfl
      · simp [connectedWorld, hq, client.zero] at h)

/-! ## Claims about a saturated subscriber -/

/-- C5, the claim as stated fails: with subscriber 0 saturated and not
drained, and subscriber 1 healthy, a broadcast whose range yields 0 first does
not complete; it waits on 0, which stays registered and open with its 32
queued envelopes, and nothing has been put on the queue of 1. -/
theorem broadcast_stalls_on_saturated :
    (clients.broadcastDel [0, 1] "M1" saturatedWorld).isDone = false ∧
    (clients.broadcastDel [0, 1] "M1" saturatedWorld).waitingOn = some 0 ∧
    (clients.broadcastDel [0, 1] "M1" saturatedWorld).queue 1 = some [] ∧
    (clients.broadcastDel [0, 1] "M1" saturatedWorld).queue 0 = some fullQueue ∧
    (clients.broadcastDel [0, 1] "M1" saturatedWorld).isOpen 0 = some true ∧
    (clients.broadcastDel [0, 1] "M1" saturatedWorld).registered = some [0, 1] := by
  refine ⟨?_, ?_, ?_, ?_, ?_, ?_⟩ <;> rfl

/-- C5 amended: a broadcast completes, with the envelope appended to the queue
of every registered open subscriber, when each of them has room.  When its
range reaches a registered open subscriber `s` whose queue is full, having met
only subscribers with room before, it does not complete while that queue is
not drained: it waits in the send on `s`; `s` is neither dropped from the
registry nor closed and its queue is as it was; the envelope has been appended
to the queues of the open subscribers visited before `s`, and no subscriber
after `s` has been touched. -/
theorem broadcast_waits_on_full (e : Envelope) (order : List Ptr) (w : World)
    (hrange : isRange order w.cs.items = true) (hwf : w.wf) :
    (w.room → ∃ w1, clients.broadcast e order w = .done w1 ∧ w1.cs = w.cs ∧
      ∀ q, q ∈ w.cs.items → (w.heap q).isOpen = true → w1.queue q = w.queue q ++ [e]) ∧
    (∀ pre s post, order = pre ++ s :: post →
      (∀ q, q ∈ pre → (w.heap q).isOpen = true → (w.queue q).length < chanCap) →
      (w.heap s).isOpen = true → chanCap ≤ (w.queue s).length →
      ∃ w1, clients.broadcast e order w = .blocked w1 s post ∧
        w1.cs = w.cs ∧ s ∈ w1.cs.items ∧ w1.heap s = w.heap s ∧
        (∀ q, q ∈ post → w1.heap q = w.heap q) ∧
        (∀ q, q ∈ pre → (w.heap q).isOpen = true → w1.queue q = w.queue q ++ [e])) := by
  obtain ⟨hnd, hmem⟩ := isRange_spec _ _ hrange
  constructor
  · intro hroom
    obtain ⟨w1, h1⟩ := broadcast_completes e order w hnd
      (fun q hq ho => ⟨hwf q ho, hroom q ((hmem q).mp hq) ho⟩)
    obtain ⟨_, h2, h3⟩ := broadcast_done e order w w1 hnd h1
    refine ⟨w1, h1, h2, fun q hq ho => ?_⟩
    simp only [World.queue, h3 q]
    simp [(hmem q).mpr hq, ho, client.enqueued]
  · intro pre s post hord hpre hs hfull
    subst hord
    obtain ⟨w1, h1, h2⟩ := broadcast_blocks e s post pre w hnd
      (fun q hq ho => ⟨hwf q ho, hpre q hq ho⟩) hs (hwf s hs) hfull
    have hndpre : pre.Nodup := (List.nodup_append.mp hnd).1
    have hdisj : ∀ q, q ∈ pre → q ∉ s :: post := fun q hq hq1 =>
      (List.nodup_append.mp hnd).2.2 hq hq1
    obtain ⟨_, h4, h5⟩ := broadcast_done e pre w w1 hndpre h1
    refine ⟨w1, h2, h4, ?_, ?_, ?_, ?_⟩
    · rw [h4]
      exact (hmem s).mp (by simp)
    · rw [h5 s]
      have : s ∉ pre := fun h => hdisj s h (by simp)
      simp [this]
    · intro q hq
      rw [h5 q]
      have : q ∉ pre := fun h => hdisj q h (by simp [hq])
      simp [this]
    · intro q hq ho
      simp only [World.queue, h5 q]
      simp [hq, ho, client.enqueued]

/-- Witness for `broadcast_waits_on_full`: the saturated subscriber 0 and the
healthy subscriber 1, with the range yielding 1 first. -/
theorem broadcast_waits_on_full_witness :
    ∃ w1, clients.broadcast (.del "M1") [1, 0] saturatedWorld = .blocked w1 0 [] ∧
      w1.cs = saturatedWorld.cs ∧ 0 ∈ w1.cs.items ∧ w1.heap 0 = saturatedWorld.heap 0 ∧
      (∀ q, q ∈ ([] : List Ptr) → w1.heap q = saturatedWorld.heap q) ∧
      (∀ q, q ∈ [1] → (saturatedWorld.heap q).isOpen = true →
        w1.queue q = saturatedWorld.queue q ++ [Envelope.del "M1"]) :=
  (broadcast_waits_on_full (.del "M1") [1, 0] saturatedWorld (by decide)
    (fun q h => by
      by_cases hq : q = 0
      · subst hq; rfl
      · simp [saturatedWorld, hq, client.fresh])).2 [1] 0 [] rfl
    (fun q hq _ => by
      simp only [List.mem_singleton] at hq
      subst hq
      decide)
    rfl (by decide)

/-! ## Claims about a subscriber connecting during a creation -/

/-- C7, the claim as stated fails: `postMessages` stores `M1`, then `ws` sets
up subscriber 0 (create, register, marshal, send), then `postMessages`
broadcasts; the queue of 0 holds the sync envelope with `M1` in it and after
it the add envelope of the same creation. -/
theorem connect_between_receives_both :
    (Config.run [.prod, .ws, .ws, .ws, .ws, .prod, .prod, .prod] raceStart).queue 0 =
      some [.sync [("M1", sampleMsg)], .add "M1" sampleMsg] := by
  rfl

/-! ## Races between setup, broadcast and close -/

/-- C6, the code at the failing schedule: `ws` creates and registers
subscriber 0 and marshals the still empty store; `postMessages` then stores
`M1` and broadcasts it; only then does `ws` send the sync envelope.  The add
envelope is first in the queue and the sync envelope, which lacks `M1`, comes
after it. -/
theorem sync_enqueued_after_racing_add :
    (Config.run [.ws, .ws, .ws, .prod, .prod, .prod, .prod, .ws] raceStart).queue 0 =
      some [.add "M1" sampleMsg, .sync []] := by
  rfl

/-- C10, the code at the two failing schedules.  First: `ws` creates
subscriber 0 and starts its tasks, the read loop fails at once and runs
`close` to its end, then `ws` registers, marshals and sends on the closed
queue.  Second: a broadcast passes the open-flag test of the registered
subscriber 0, then a call of `close` passes its own test, clears the flag and
closes the queue, then the broadcast sends on the closed queue.  Both runs end
in a panic. -/
theorem send_on_closed_queue_panics :
    (Config.run [.ws, .closeCall 0, .closeStep 0 .clear, .closeStep 0 .closeSend,
      .closeStep 0 .closeConn, .closeStep 0 .unregister, .ws, .ws, .ws]
      raceStart).isPanic = true ∧
    (Config.run [.prod, .prod, .closeCall 0, .closeStep 0 .clear, .closeStep 0 .closeSend,
      .prod] closeRaceStart).isPanic = true := by
  constructor <;> rfl

/-! ## Delivery to a subscriber that stays open -/

theorem envelope_not_sync (j : Job) (e : Envelope) (h : j.envelope = some e) :
    e.isSync = false := by
  cases j <;> simp [Job.envelope] at h <;> subst h <;> rfl

theorem filter_envelopes (keep : Envelope → Bool)
    (hk : ∀ e, e.isSync = false → keep e = true) (jobs : List Job) :
    (envelopes jobs).filter keep = envelopes jobs := by
  apply List.filter_eq_self.mpr
  intro e he
  simp only [envelopes, List.mem_filterMap] at he
  obtain ⟨j, _, hj⟩ := he
  exact hk e (envelope_not_sync j e hj)

theorem startBroadcast_inv (keep : Envelope → Bool) (p : Ptr) (total : List Envelope)
    (cfg cfg1 : Config) (e : Envelope) (order : List Ptr) (js : List Job) (j : Job)
    (hk : ∀ e, e.isSync = false → keep e = true)
    (hcur : cfg.prod.cur = none) (hjobs : cfg.prod.jobs = j :: js)
    (hj : j.envelope = some e)
    (hinv : cfg.Inv keep p total) (h : cfg.startBroadcast e order js = .ok cfg1) :
    cfg1.Inv keep p total := by
  obtain ⟨h1, h2, h3, h4, h5, _, h7, h8⟩ := hinv
  unfold Config.startBroadcast at h
  split at h
  · rename_i hr
    obtain ⟨hnd, hmem⟩ := isRange_spec _ _ hr
    cases h
    refine ⟨h1, h2, h3, h4, ?_, ?_, h7, h8⟩
    · have hcount : order.count p = 1 :=
        List.count_eq_one_of_mem hnd ((hmem p).mpr h1)
      rw [← h5]
      simp [Producer.pendingFor, hcur, hjobs, hcount, envelopes, hj]
    · intro b hb
      simp only [Option.some.injEq] at hb
      subst hb
      exact hk e (envelope_not_sync j e hj)
  · cases h

theorem stepProd_inv (keep : Envelope → Bool) (p : Ptr) (total : List Envelope)
    (cfg cfg1 : Config) (hk : ∀ e, e.isSync = false → keep e = true)
    (hinv : cfg.Inv keep p total) (h : cfg.stepProd = .ok cfg1) : cfg1.Inv keep p total := by
  have hinv0 := hinv
  obtain ⟨h1, h2, h3, h4, h5, h6, h7, h8⟩ := hinv
  unfold Config.stepProd at h
  cases hcur : cfg.prod.cur with
  | some b =>
    have hkb : keep b.env = true := h6 b hcur
    rw [hcur] at h
    simp only at h
    cases hs : b.sending with
    | some c =>
      rw [hs] at h
      simp only at h
      cases ht : (cfg.w.heap c).send.trySend b.env with
      | sent ch =>
        rw [ht] at h
        cases h
        obtain ⟨hch, _, _⟩ := trySend_sent _ _ _ ht
        have hcur1 : ∀ b1, some ({ b with sending := none } : Bcast) = some b1 →
            keep b1.env = true := by
          intro b1 hb1
          simp only [Option.some.injEq] at hb1
          subst hb1
          exact hkb
        by_cases hc : c = p
        · subst hc
          refine ⟨h1, ?_, ?_, ?_, ?_, hcur1, h7, h8⟩
          · simpa [World.setSend, World.setClient] using h2
          · simpa [World.setSend, World.setClient, hch] using h3
          · simpa [World.setSend, World.setClient] using h4
          · rw [← h5]
            simp [World.setSend, World.setClient, World.queue, hch, Producer.pendingFor,
              hcur, hs, List.replicate_succ, Nat.add_comm 1, List.filter_append,
              List.filter_cons, hkb]
        · have hp : p ≠ c := fun h => hc h.symm
          have hsp : ¬ some c = some p := by simpa using hc
          refine ⟨h1, ?_, ?_, ?_, ?_, hcur1, h7, h8⟩
          · simpa [World.setSend, World.setClient, hp] using h2
          · simpa [World.setSend, World.setClient, hp] using h3
          · simpa [World.setSend, World.setClient, hp] using h4
          · rw [← h5]
            simp [World.setSend, World.setClient, World.queue, hp, Producer.pendingFor,
              hcur, hs, hsp]
      | full => rw [ht] at h; cases h
      | closedChan => rw [ht] at h; cases h
    | none =>
      rw [hs] at h
      simp only at h
      cases htodo : b.todo with
      | nil =>
        rw [htodo] at h
        cases h
        refine ⟨h1, h2, h3, h4, ?_, (by intro b1 hb1; cases hb1), h7, h8⟩
        rw [← h5]
        simp [Producer.pendingFor, hcur, hs, htodo]
      | cons c rest =>
        rw [htodo] at h
        cases h
        refine ⟨h1, h2, h3, h4, ?_, ?_, h7, h8⟩
        · rw [← h5]
          by_cases hc : c = p
          · subst hc
            simp [Producer.pendingFor, hcur, hs, htodo, h2, Nat.add_comm]
          · have hsp : ¬ some c = some p := by simpa using hc
            have hcnt : List.count p (c :: rest) = List.count p rest :=
              List.count_cons_of_ne (fun h => hc h.symm) rest
            by_cases ho : (cfg.w.heap c).isOpen = true
            · simp [Producer.pendingFor, hcur, hs, htodo, ho, hc, hcnt]
            · simp [Producer.pendingFor, hcur, hs, htodo, ho, hc, hcnt]
        · intro b1 hb1
          simp only [Option.some.injEq] at hb1
          subst hb1
          exact hkb
  | none =>
    rw [hcur] at h
    simp only at h
    cases hjobs : cfg.prod.jobs with
    | nil => rw [hjobs] at h; cases h
    | cons j js =>
      rw [hjobs] at h
      cases j with
      | add m =>
        cases h
        refine ⟨h1, h2, h3, h4, ?_, (by intro b1 hb1; cases hb1), h7, h8⟩
        rw [← h5]
        simp [Producer.pendingFor, hcur, hjobs, envelopes, Job.envelope, World.queue]
      | del id =>
        cases h
        refine ⟨h1, h2, h3, h4, ?_, (by intro b1 hb1; cases hb1), h7, h8⟩
        rw [← h5]
        simp [Producer.pendingFor, hcur, hjobs, envelopes, Job.envelope, World.queue]
      | broadcastAdd m order =>
        exact startBroadcast_inv keep p total cfg cfg1 _ order js _ hk hcur hjobs rfl hinv0 h
      | broadcastDel id order =>
        exact startBroadcast_inv keep p total cfg cfg1 _ order js _ hk hcur hjobs rfl hinv0 h

theorem stepWs_inv (keep : Envelope → Bool) (p : Ptr) (total : List Envelope)
    (cfg cfg1 : Config) (hinv : cfg.Inv keep p total) (h : cfg.stepWs = .ok cfg1) :
    cfg1.Inv keep p total := by
  obtain ⟨h1, h2, h3, h4, h5, h6, h7, h8⟩ := hinv
  unfold Config.stepWs at h
  cases hpc : cfg.setup.pc with
  | create =>
    rw [hpc] at h
    simp only at h
    split at h
    · cases h
    · rename_i hfresh
      have hfresh1 := not_inUse cfg cfg.setup.cl (by simpa using hfresh)
      cases h
      have hp : p ≠ cfg.setup.cl := fun h => hfresh1.1 (h ▸ h1)
      refine ⟨h1, ?_, ?_, ?_, ?_, h6, Or.inr (Or.inl (fun h => hp h.symm)), h8⟩
      · simpa [World.setClient, hp] using h2
      · simpa [World.setClient, hp] using h3
      · simpa [World.setClient, hp] using h4
      · rw [← h5]
        simp [World.setClient, World.queue, hp]
  | register =>
    rw [hpc] at h
    simp only at h
    cases hcur : cfg.prod.cur with
    | some b => rw [hcur] at h; cases h
    | none =>
      rw [hcur] at h
      cases h
      have h71 : (∀ d, keep (.sync d) = false) ∨ cfg.setup.cl ≠ p := by
        rcases h7 with h7 | h7 | h7
        · exact Or.inl h7
        · exact Or.inr h7
        · rw [hpc] at h7; cases h7
      refine ⟨?_, h2, h3, h4, ?_, (by intro b hb; simp [hcur] at hb),
        h71.imp id Or.inl, h8⟩
      · simp only [clients.register]
        split
        · exact h1
        · exact List.mem_cons_of_mem _ h1
      · rw [← h5]
        simp [World.queue, Producer.pendingFor]
  | marshal =>
    rw [hpc] at h
    cases h
    have h71 : (∀ d, keep (.sync d) = false) ∨ cfg.setup.cl ≠ p := by
      rcases h7 with h7 | h7 | h7
      · exact Or.inl h7
      · exact Or.inr h7
      · rw [hpc] at h7; cases h7
    exact ⟨h1, h2, h3, h4, h5, h6, h71.imp id Or.inl, h8⟩
  | send data =>
    rw [hpc] at h
    simp only at h
    have h71 : (∀ d, keep (.sync d) = false) ∨ cfg.setup.cl ≠ p := by
      rcases h7 with h7 | h7 | h7
      · exact Or.inl h7
      · exact Or.inr h7
      · rw [hpc] at h7; cases h7
    cases ht : (cfg.w.heap cfg.setup.cl).send.trySend (.sync data) with
    | sent ch =>
      rw [ht] at h
      cases h
      obtain ⟨hch, _, _⟩ := trySend_sent _ _ _ ht
      by_cases hc : cfg.setup.cl = p
      · have hkd : keep (.sync data) = false := by
          rcases h71 with h71 | h71
          · exact h71 data
          · exact absurd hc h71
        rw [hc] at hch
        refine ⟨h1, ?_, ?_, ?_, ?_, h6, Or.inr (Or.inr rfl), h8⟩
        · simpa [World.setSend, World.setClient, hc] using h2
        · simpa [World.setSend, World.setClient, hc, hch] using h3
        · simpa [World.setSend, World.setClient, hc] using h4
        · rw [← h5]
          simp [World.setSend, World.setClient, World.queue, hc, hch, List.filter_append,
            List.filter_cons, hkd]
      · have hp : p ≠ cfg.setup.cl := fun h => hc h.symm
        refine ⟨h1, ?_, ?_, ?_, ?_, h6, Or.inr (Or.inr rfl), h8⟩
        · simpa [World.setSend, World.setClient, hp] using h2
        · simpa [World.setSend, World.setClient, hp] using h3
        · simpa [World.setSend, World.setClient, hp] using h4
        · rw [← h5]
          simp [World.setSend, World.setClient, World.queue, hp]
    | full => rw [ht] at h; cases h
    | closedChan => rw [ht] at h; cases h
  | returned =>
    rw [hpc] at h
    cases h

theorem stepWriter_inv (keep : Envelope → Bool) (p : Ptr) (total : List Envelope)
    (cfg cfg1 : Config) (c : Ptr)
    (hinv : cfg.Inv keep p total) (h : cfg.stepWriter c = .ok cfg1) :
    cfg1.Inv keep p total := by
  obtain ⟨h1, h2, h3, h4, h5, h6, h7, h8⟩ := hinv
  unfold Config.stepWriter at h
  cases hb : (cfg.w.heap c).send.buf with
  | nil =>
    rw [hb] at h
    simp only at h
    split at h <;> cases h
  | cons e rest =>
    rw [hb] at h
    simp only at h
    split at h
    · cases h
    · cases h
      by_cases hc : c = p
      · subst hc
        refine ⟨h1, ?_, ?_, ?_, ?_, h6, h7, h8⟩
        · simpa [World.setClient, client.afterWrite] using h2
        · simpa [World.setClient, client.afterWrite] using h3
        · simpa [World.setClient, client.afterWrite] using h4
        · rw [← h5]
          simp [World.setClient, World.queue, hb, client.afterWrite]
      · have hp : p ≠ c := fun h => hc h.symm
        refine ⟨h1, ?_, ?_, ?_, ?_, h6, h7, h8⟩
        · simpa [World.setClient, hp] using h2
        · simpa [World.setClient, hp] using h3
        · simpa [World.setClient, hp] using h4
        · rw [← h5]
          simp [World.setClient, World.queue, hp]

theorem stepClose_inv (keep : Envelope → Bool) (p : Ptr) (total : List Envelope)
    (cfg cfg1 : Config) (c : Ptr) (pc : ClosePc)
    (hinv : cfg.Inv keep p total) (h : cfg.stepClose c pc = .ok cfg1) :
    cfg1.Inv keep p total := by
  obtain ⟨h1, h2, h3, h4, h5, h6, h7, h8⟩ := hinv
  unfold Config.stepClose at h
  split at h
  · rename_i hmem
    have hc : p ≠ c := fun hpc => h8 pc (hpc ▸ hmem)
    have hcl : ∀ (pc1 pc2 : ClosePc) (pc3 : ClosePc),
        (p, pc3) ∉ (c, pc1) :: cfg.closers.erase (c, pc2) := by
      intro pc1 pc2 pc3 hm
      simp only [List.mem_cons, Prod.mk.injEq, hc, false_and, false_or] at hm
      exact h8 pc3 (List.mem_of_mem_erase hm)
    cases pc with
    | clear =>
      simp only at h
      cases h
      refine ⟨h1, ?_, ?_, ?_, ?_, h6, h7, hcl _ _⟩
      · simpa [World.setClient, hc] using h2
      · simpa [World.setClient, hc] using h3
      · simpa [World.setClient, hc] using h4
      · rw [← h5]
        simp [World.setClient, World.queue, hc]
    | closeSend =>
      simp only at h
      split at h
      · cases h
      · cases h
        refine ⟨h1, ?_, ?_, ?_, ?_, h6, h7, hcl _ _⟩
        · simpa [World.setClient, hc] using h2
        · simpa [World.setClient, hc] using h3
        · simpa [World.setClient, hc] using h4
        · rw [← h5]
          simp [World.setClient, World.queue, hc]
    | closeConn =>
      simp only at h
      cases h
      refine ⟨h1, ?_, ?_, ?_, ?_, h6, h7, hcl _ _⟩
      · simpa [World.setClient, hc] using h2
      · simpa [World.setClient, hc] using h3
      · simpa [World.setClient, hc] using h4
      · rw [← h5]
        simp [World.setClient, World.queue, hc]
    | unregister =>
      simp only at h
      cases hcur : cfg.prod.cur with
      | some b => rw [hcur] at h; cases h
      | none =>
        rw [hcur] at h
        cases h
        refine ⟨?_, h2, h3, h4, ?_, (by intro b hb; simp [hcur] at hb), h7,
          fun pc3 hm => h8 pc3 (List.mem_of_mem_erase hm)⟩
        · simp only [clients.unregister]
          split
          · simp [h1, hc]
          · exact h1
        · rw [← h5]
          simp [World.queue, Producer.pendingFor, hcur]
  · cases h

theorem step_inv (keep : Envelope → Bool) (p : Ptr) (total : List Envelope)
    (cfg cfg1 : Config) (t : Tick) (hk : ∀ e, e.isSync = false → keep e = true)
    (ht : t ≠ .closeCall p)
    (hinv : cfg.Inv keep p total) (h : cfg.step t = .ok cfg1) : cfg1.Inv keep p total := by
  cases t with
  | prod => exact stepProd_inv keep p total cfg cfg1 hk hinv h
  | ws => exact stepWs_inv keep p total cfg cfg1 hinv h
  | writer c => exact stepWriter_inv keep p total cfg cfg1 c hinv h
  | closeCall c =>
    have hc : p ≠ c := fun h => ht (h ▸ rfl)
    obtain ⟨h1, h2, h3, h4, h5, h6, h7, h8⟩ := hinv
    simp only [Config.step, Config.stepCloseCall, Result.ok.injEq] at h
    subst h
    refine ⟨h1, h2, h3, h4, h5, h6, h7, fun pc hm => ?_⟩
    simp only [List.mem_cons, Prod.mk.injEq, hc, false_and, false_or] at hm
    exact h8 pc hm
  | closeStep c pc => exact stepClose_inv keep p total cfg cfg1 c pc hinv h

theorem run_inv (keep : Envelope → Bool) (p : Ptr) (total : List Envelope)
    (hk : ∀ e, e.isSync = false → keep e = true) (sched : List Tick) :
    ∀ (cfg cfg1 : Config),
      (∀ t, t ∈ sched → t ≠ .closeCall p) →
      cfg.Inv keep p total → Config.run sched cfg = .ok cfg1 → cfg1.Inv keep p total := by
  induction sched with
  | nil =>
    intro cfg cfg1 _ hinv h
    simp only [Config.run, Result.ok.injEq] at h
    exact h ▸ hinv
  | cons t ts ih =>
    intro cfg cfg1 hnever hinv h
    simp only [Config.run] at h
    cases hstep : cfg.step t with
    | ok cfg2 =>
      rw [hstep] at h
      have ht := hnever t (List.mem_cons_self _ _)
      exact ih cfg2 cfg1 (fun t1 h1 => hnever t1 (List.mem_cons_of_mem _ h1))
        (step_inv keep p total cfg cfg2 t hk ht hinv hstep) h
    | blocked => rw [hstep] at h; cases h
    | invalid => rw [hstep] at h; cases h
    | panic => rw [hstep] at h; cases h

theorem sameShape_refl (w : World) : w.sameShape w :=
  ⟨rfl, fun _ => ⟨rfl, rfl, rfl⟩⟩

theorem sameShape_trans (w w1 w2 : World) (h1 : w.sameShape w1) (h2 : w1.sameShape w2) :
    w.sameShape w2 :=
  ⟨h2.1.trans h1.1, fun q =>
    ⟨(h2.2 q).1.trans (h1.2 q).1, (h2.2 q).2.1.trans (h1.2 q).2.1,
      (h2.2 q).2.2.trans (h1.2 q).2.2⟩⟩

theorem live_of_sameShape (w w1 : World) (h : w.sameShape w1) (hl : w.live) : w1.live := by
  intro c hc ho
  rw [h.1] at hc
  rw [(h.2 c).1] at ho
  rw [(h.2 c).2.1, (h.2 c).2.2]
  exact hl c hc ho

theorem run_append_ok (s1 s2 : List Tick) :
    ∀ (cfg cfg1 cfg2 : Config), Config.run s1 cfg = .ok cfg1 →
      Config.run s2 cfg1 = .ok cfg2 → Config.run (s1 ++ s2) cfg = .ok cfg2 := by
  induction s1 with
  | nil =>
    intro cfg cfg1 cfg2 h1 h2
    simp only [Config.run, Result.ok.injEq] at h1
    subst h1
    exact h2
  | cons t ts ih =>
    intro cfg cfg1 cfg2 h1 h2
    simp only [Config.run, List.cons_append] at h1 ⊢
    cases hstep : cfg.step t with
    | ok cfg3 =>
      rw [hstep] at h1
      simp only
      exact ih cfg3 cfg1 cfg2 h1 h2
    | blocked => rw [hstep] at h1; cases h1
    | invalid => rw [hstep] at h1; cases h1
    | panic => rw [hstep] at h1; cases h1

theorem drain (p : Ptr) (n : Nat) :
    ∀ (cfg : Config), (cfg.w.queue p).length = n → (cfg.w.heap p).connClosed = false →
      ∃ cfg1, Config.run (List.replicate n (.writer p)) cfg = .ok cfg1 ∧
        (cfg1.w.heap p).written = (cfg.w.heap p).written ++ cfg.w.queue p ∧
        cfg1.w.queue p = [] ∧ cfg1.prod = cfg.prod ∧ cfg1.setup = cfg.setup ∧
        cfg.w.sameShape cfg1.w := by
  induction n with
  | zero =>
    intro cfg hlen _
    refine ⟨cfg, rfl, ?_, ?_, rfl, rfl, sameShape_refl _⟩
    · simp [List.length_eq_zero.mp hlen]
    · exact List.length_eq_zero.mp hlen
  | succ n ih =>
    intro cfg hlen hconn
    cases hb : (cfg.w.heap p).send.buf with
    | nil => simp [World.queue, hb] at hlen
    | cons e rest =>
      have hstep : cfg.step (.writer p) =
          .ok { cfg with w := cfg.w.setClient p ((cfg.w.heap p).afterWrite e rest) } := by
        simp [Config.step, Config.stepWriter, hb, hconn]
      have hlen1 : rest.length = n := by
        simp only [World.queue, hb, List.length_cons] at hlen
        omega
      obtain ⟨cfg1, h1, h2, h3, h4, h5, h6⟩ := ih
        { cfg with w := cfg.w.setClient p ((cfg.w.heap p).afterWrite e rest) }
        (by simpa [World.queue, World.setClient, client.afterWrite] using hlen1)
        (by simpa [World.setClient, client.afterWrite] using hconn)
      refine ⟨cfg1, ?_, ?_, h3, h4, h5, ?_⟩
      · simp only [List.replicate_succ, Config.run, hstep]
        exact h1
      · rw [h2]
        simp [World.setClient, World.queue, hb, client.afterWrite]
      · refine sameShape_trans cfg.w
          (cfg.w.setClient p ((cfg.w.heap p).afterWrite e rest)) cfg1.w
          ⟨rfl, fun q => ?_⟩ h6
        by_cases hq : q = p
        · subst hq
          simp [World.setClient, client.afterWrite]
        · simp [World.setClient, hq]

theorem send_with_drain (cfg : Config) (b : Bcast) (c : Ptr)
    (hcur : cfg.prod.cur = some b) (hs : b.sending = some c)
    (hch : (cfg.w.heap c).send.closed = false)
    (hconn : (cfg.w.heap c).connClosed = false) :
    ∃ sched cfg1, onlyProdAndWriters sched ∧ Config.run sched cfg = .ok cfg1 ∧
      cfg1.prod.cur = some { b with sending := none } ∧
      cfg1.prod.jobs = cfg.prod.jobs ∧ cfg1.setup = cfg.setup ∧
      cfg.w.sameShape cfg1.w := by
  obtain ⟨cfg1, h1, _, h3, h4, h5, h6⟩ := drain c _ cfg rfl hconn
  have hch1 : (cfg1.w.heap c).send.closed = false := by
    rw [(h6.2 c).2.1]
    exact hch
  have hroom : (cfg1.w.heap c).send.buf.length < chanCap := by
    have : (cfg1.w.heap c).send.buf = [] := h3
    rw [this]
    decide
  obtain ⟨cfg2, hstep, hc2, hj2, hse2, hsh2⟩ : ∃ cfg2, Config.run [.prod] cfg1 = .ok cfg2 ∧
      cfg2.prod.cur = some { b with sending := none } ∧ cfg2.prod.jobs = cfg1.prod.jobs ∧
      cfg2.setup = cfg1.setup ∧ cfg1.w.sameShape cfg2.w := by
    refine ⟨{ cfg1 with
        w := cfg1.w.setSend c
          { (cfg1.w.heap c).send with buf := (cfg1.w.heap c).send.buf ++ [b.env] },
        prod := { cfg1.prod with cur := some { b with sending := none } } },
      ?_, rfl, rfl, rfl, rfl, fun q => ?_⟩
    · simp [Config.run, Config.step, Config.stepProd, h4, hcur, hs,
        trySend_room _ b.env hch1 hroom]
    · by_cases hq : q = c
      · subst hq
        simp [World.setSend, World.setClient]
      · simp [World.setSend, World.setClient, hq]
  refine ⟨List.replicate (cfg.w.queue c).length (.writer c) ++ [.prod], cfg2, ?_,
    run_append_ok _ _ _ _ _ h1 hstep, hc2, ?_, hse2.trans h5,
    sameShape_trans _ _ _ h6 hsh2⟩
  · intro t ht
    rcases List.mem_append.mp ht with ht | ht
    · exact Or.inr ⟨c, (List.mem_replicate.mp ht).2⟩
    · exact Or.inl (List.mem_singleton.mp ht)
  · rw [hj2, h4]

theorem loop_completes (e : Envelope) (todo : List Ptr) :
    ∀ (cfg : Config), cfg.prod.cur = some { env := e, todo := todo, sending := none } →
      cfg.w.live → (∀ c, c ∈ todo → c ∈ cfg.w.cs.items) →
      ∃ sched cfg1, onlyProdAndWriters sched ∧ Config.run sched cfg = .ok cfg1 ∧
        cfg1.prod.cur = none ∧ cfg1.prod.jobs = cfg.prod.jobs ∧
        cfg1.setup = cfg.setup ∧ cfg.w.sameShape cfg1.w := by
  induction todo with
  | nil =>
    intro cfg hcur _ _
    refine ⟨[.prod], { cfg with prod := { cfg.prod with cur := none } }, ?_, ?_, rfl, rfl,
      rfl, sameShape_refl _⟩
    · intro t ht
      exact Or.inl (List.mem_singleton.mp ht)
    · simp [Config.run, Config.step, Config.stepProd, hcur]
  | cons c rest ih =>
    intro cfg hcur hlive hmem
    by_cases ho : (cfg.w.heap c).isOpen = true
    · have hstep : Config.run [.prod] cfg = .ok
          { cfg with prod := { cfg.prod with
              cur := some { env := e, todo := rest, sending := some c } } } := by
        simp [Config.run, Config.step, Config.stepProd, hcur, ho]
      obtain ⟨hch, hconn⟩ := hlive c (hmem c (List.mem_cons_self _ _)) ho
      obtain ⟨s2, cfg2, hs2, hr2, hc2, hj2, hse2, hsh2⟩ := send_with_drain
        { cfg with prod := { cfg.prod with
            cur := some { env := e, todo := rest, sending := some c } } }
        { env := e, todo := rest, sending := some c } c rfl rfl hch hconn
      obtain ⟨s3, cfg3, hs3, hr3, hc3, hj3, hse3, hsh3⟩ := ih cfg2 hc2
        (live_of_sameShape _ _ hsh2 hlive)
        (fun q hq => by
          rw [hsh2.1]
          exact hmem q (List.mem_cons_of_mem _ hq))
      refine ⟨[.prod] ++ (s2 ++ s3), cfg3, ?_,
        run_append_ok _ _ _ _ _ hstep (run_append_ok _ _ _ _ _ hr2 hr3), hc3,
        hj3.trans hj2, hse3.trans hse2, sameShape_trans _ _ _ hsh2 hsh3⟩
      intro t ht
      rcases List.mem_append.mp ht with ht | ht
      · exact Or.inl (List.mem_singleton.mp ht)
      · rcases List.mem_append.mp ht with ht | ht
        · exact hs2 t ht
        · exact hs3 t ht
    · have hstep : Config.run [.prod] cfg = .ok
          { cfg with prod := { cfg.prod with
              cur := some { env := e, todo := rest, sending := none } } } := by
        simp [Config.run, Config.step, Config.stepProd, hcur, ho]
      obtain ⟨s3, cfg3, hs3, hr3, hc3, hj3, hse3, hsh3⟩ := ih
        { cfg with prod := { cfg.prod with
            cur := some { env := e, todo := rest, sending := none } } } rfl hlive
        (fun q hq => hmem q (List.mem_cons_of_mem _ hq))
      refine ⟨[.prod] ++ s3, cfg3, ?_, run_append_ok _ _ _ _ _ hstep hr3, hc3, hj3, hse3,
        hsh3⟩
      intro t ht
      rcases List.mem_append.mp ht with ht | ht
      · exact Or.inl (List.mem_singleton.mp ht)
      · exact hs3 t ht

theorem broadcast_job_completes (cfg : Config) (e : Envelope) (order : List Ptr)
    (js : List Job) (hlive : cfg.w.live) (hr : isRange order cfg.w.cs.items = true) :
    ∃ sched cfg1, onlyProdAndWriters sched ∧
      Config.run sched { cfg with prod := { cur := some ⟨e, order, none⟩, jobs := js } } =
        .ok cfg1 ∧
      cfg1.prod.cur = none ∧ cfg1.prod.jobs = js ∧ cfg.w.sameShape cfg1.w := by
  obtain ⟨_, hmem⟩ := isRange_spec _ _ hr
  obtain ⟨s, cfg1, h1, h2, h3, h4, _, h6⟩ := loop_completes e order
    { cfg with prod := { cur := some ⟨e, order, none⟩, jobs := js } } rfl hlive
    (fun c hc => (hmem c).mp hc)
  exact ⟨s, cfg1, h1, h2, h3, h4, h6⟩

theorem jobs_complete (jobs : List Job) :
    ∀ (cfg : Config), cfg.prod.cur = none → cfg.prod.jobs = jobs → cfg.w.live →
      (∀ j, j ∈ jobs → j.valid cfg.w.cs.items = true) →
      ∃ sched cfg1, onlyProdAndWriters sched ∧ Config.run sched cfg = .ok cfg1 ∧
        cfg1.prod.finished = true := by
  induction jobs with
  | nil =>
    intro cfg hcur hjobs _ _
    refine ⟨[], cfg, ?_, rfl, ?_⟩
    · intro t ht
      cases ht
    · simp [Producer.finished, hcur, hjobs]
  | cons j js ih =>
    intro cfg hcur hjobs hlive hvalid
    have hvjs : ∀ (w1 : World), cfg.w.sameShape w1 →
        ∀ j1, j1 ∈ js → j1.valid w1.cs.items = true := fun w1 hsh j1 hj1 => by
      rw [hsh.1]
      exact hvalid j1 (List.mem_cons_of_mem _ hj1)
    have hbc : ∀ (e : Envelope) (order : List Ptr),
        isRange order cfg.w.cs.items = true →
        Config.run [.prod] cfg =
          .ok { cfg with prod := { cur := some ⟨e, order, none⟩, jobs := js } } →
        ∃ sched cfg1, onlyProdAndWriters sched ∧ Config.run sched cfg = .ok cfg1 ∧
          cfg1.prod.finished = true := by
      intro e order hr hstep
      obtain ⟨s2, cfg2, hs2, hr2, hc2, hj2, hsh2⟩ :=
        broadcast_job_completes cfg e order js hlive hr
      obtain ⟨s3, cfg3, hs3, hr3, hf3⟩ := ih cfg2 hc2 hj2
        (live_of_sameShape _ _ hsh2 hlive) (hvjs _ hsh2)
      refine ⟨[.prod] ++ (s2 ++ s3), cfg3, ?_,
        run_append_ok _ _ _ _ _ hstep (run_append_ok _ _ _ _ _ hr2 hr3), hf3⟩
      intro t ht
      rcases List.mem_append.mp ht with ht | ht
      · exact Or.inl (List.mem_singleton.mp ht)
      · rcases List.mem_append.mp ht with ht | ht
        · exact hs2 t ht
        · exact hs3 t ht
    have hst : ∀ (ms1 : messages),
        Config.run [.prod] cfg =
          .ok { cfg with w := { cfg.w with ms := ms1 }, prod := { cur := none, jobs := js } } →
        ∃ sched cfg1, onlyProdAndWriters sched ∧ Config.run sched cfg = .ok cfg1 ∧
          cfg1.prod.finished = true := by
      intro ms1 hstep
      obtain ⟨s3, cfg3, hs3, hr3, hf3⟩ := ih
        { cfg with w := { cfg.w with ms := ms1 }, prod := { cur := none, jobs := js } }
        rfl rfl hlive (hvjs _ (sameShape_refl _))
      refine ⟨[.prod] ++ s3, cfg3, ?_, run_append_ok _ _ _ _ _ hstep hr3, hf3⟩
      intro t ht
      rcases List.mem_append.mp ht with ht | ht
      · exact Or.inl (List.mem_singleton.mp ht)
      · exact hs3 t ht
    have hv := hvalid j (List.mem_cons_self _ _)
    cases j with
    | add m =>
      exact hst (cfg.w.ms.add m)
        (by simp [Config.run, Config.step, Config.stepProd, hcur, hjobs])
    | del id =>
      exact hst (cfg.w.ms.del id)
        (by simp [Config.run, Config.step, Config.stepProd, hcur, hjobs])
    | broadcastAdd m order =>
      have hr : isRange order cfg.w.cs.items = true := hv
      exact hbc (.add m.Sid m) order hr (by
        simp [Config.run, Config.step, Config.stepProd, hcur, hjobs,
          Config.startBroadcast, hr])
    | broadcastDel id order =>
      have hr : isRange order cfg.w.cs.items = true := hv
      exact hbc (.del id) order hr (by
        simp [Config.run, Config.step, Config.stepProd, hcur, hjobs,
          Config.startBroadcast, hr])

/-- C2, the claim as stated fails: subscriber 1 is registered and open and is
never closed, yet the broadcast never reaches it: after the producing task
has started the broadcast and passed the open-flag test of the saturated
subscriber 0, its send on 0 has to wait, the queue of 1 is still empty and
the write loop of 1 has nothing to take. -/
theorem broadcast_never_reaches_healthy :
    1 ∈ stalledStart.w.cs.items ∧ (stalledStart.w.heap 1).isOpen = true ∧
    (Config.run [.prod, .prod] stalledStart).queue 1 = some [] ∧
    (Config.run [.prod, .prod, .prod] stalledStart).isBlocked = true ∧
    (Config.run [.prod, .prod, .writer 1] stalledStart).isBlocked = true := by
  refine ⟨by decide, rfl, rfl, rfl, rfl⟩

/-- C2 amended: let subscriber `p` be registered and open, with its queue and
its connection not closed, before a producing task starts a sequence of calls
among which N broadcasts, and let no call of `close` on `p` be in progress or
start.  Whatever the interleaving, statement by statement, of those calls with
the write loops, a setup in `ws` and calls of `close` on other subscribers:
once the N broadcasts have completed, the envelopes other than sync envelopes
that `p` has written to its connection or still has in its queue are those it
had before followed by the N envelopes in emission order, each once; when no
sync envelope is about to be sent to `p`, the whole of what it has written and
queued is what it was before followed by those N envelopes; and its write loop
then takes the queued frames one by one onto its outbound stream.  The
broadcasts do complete under some schedule of the producing task and the
write loops when every registered open subscriber has its queue and
connection open and the range orders are ones the registry yields. -/
theorem subscriber_receives_broadcasts_in_order (p : Ptr) (cfg : Config)
    (hreg : p ∈ cfg.w.cs.items) (hopen : (cfg.w.heap p).isOpen = true)
    (hchan : (cfg.w.heap p).send.closed = false)
    (hconn : (cfg.w.heap p).connClosed = false)
    (hidle : cfg.prod.cur = none)
    (hnone : ∀ pc, (p, pc) ∉ cfg.closers) :
    (∀ (sched : List Tick) (cfg1 : Config),
      (∀ t, t ∈ sched → t ≠ .closeCall p) →
      Config.run sched cfg = .ok cfg1 → cfg1.prod.finished = true →
      broadcastOnly ((cfg1.w.heap p).written ++ cfg1.w.queue p) =
        broadcastOnly ((cfg.w.heap p).written ++ cfg.w.queue p) ++
          envelopes cfg.prod.jobs ∧
      (cfg.setup.cl ≠ p ∨ cfg.setup.pc = .returned →
        (cfg1.w.heap p).written ++ cfg1.w.queue p =
          (cfg.w.heap p).written ++ cfg.w.queue p ++ envelopes cfg.prod.jobs) ∧
      ∃ cfg2,
        Config.run (List.replicate (cfg1.w.queue p).length (.writer p)) cfg1 = .ok cfg2 ∧
        (cfg2.w.heap p).written = (cfg1.w.heap p).written ++ cfg1.w.queue p ∧
        cfg2.w.queue p = []) ∧
    (cfg.w.live → (∀ j, j ∈ cfg.prod.jobs → j.valid cfg.w.cs.items = true) →
      ∃ sched cfg1, onlyProdAndWriters sched ∧ Config.run sched cfg = .ok cfg1 ∧
        cfg1.prod.finished = true) := by
  constructor
  · intro sched cfg1 hnever hrun hfin
    have hfin1 : cfg1.prod.cur = none ∧ cfg1.prod.jobs = [] := by
      simpa [Producer.finished] using hfin
    have hpend : cfg1.prod.pendingFor p = [] := by
      simp [Producer.pendingFor, hfin1.1, hfin1.2, envelopes]
    have hkf : ∀ e : Envelope, e.isSync = false → (fun e => !e.isSync) e = true := by
      intro e he
      simp [he]
    have hinvF : cfg.Inv (fun e => !e.isSync) p
        (broadcastOnly ((cfg.w.heap p).written ++ cfg.w.queue p) ++
          envelopes cfg.prod.jobs) :=
      ⟨hreg, hopen, hchan, hconn, by simp [Producer.pendingFor, hidle, broadcastOnly],
        by intro b hb; simp [hidle] at hb, Or.inl (fun d => by simp [Envelope.isSync]),
        hnone⟩
    obtain ⟨_, _, _, h4, h5, _⟩ := run_inv _ p _ hkf sched cfg cfg1 hnever hinvF hrun
    rw [hpend, List.append_nil] at h5
    refine ⟨h5, ?_, ?_⟩
    · intro hsetup
      have hinvT : cfg.Inv (fun _ => true) p
          ((cfg.w.heap p).written ++ cfg.w.queue p ++ envelopes cfg.prod.jobs) :=
        ⟨hreg, hopen, hchan, hconn, by simp [Producer.pendingFor, hidle],
          by intro b hb; simp [hidle] at hb, Or.inr hsetup, hnone⟩
      obtain ⟨_, _, _, _, h6, _⟩ :=
        run_inv _ p _ (fun _ _ => rfl) sched cfg cfg1 hnever hinvT hrun
      rw [hpend, List.append_nil] at h6
      simpa using h6
    · obtain ⟨cfg2, h6, h7, h8, _⟩ := drain p _ cfg1 rfl h4
      exact ⟨cfg2, h6, h7, h8⟩
  · intro hlive hvalid
    exact jobs_complete cfg.prod.jobs cfg hidle rfl hlive hvalid

/-- Witness for `subscriber_receives_broadcasts_in_order`: subscriber 0 with
its sync envelope queued, a removal and a creation broadcast while its write
loop runs. -/
theorem subscriber_receives_broadcasts_in_order_witness :
    ((Config.run deliverySchedule deliveryStart).getD deliveryStart).w.queue 0 =
      [.add "M1" sampleMsg] ∧
    (((Config.run deliverySchedule deliveryStart).getD deliveryStart).w.heap 0).written ++
      ((Config.run deliverySchedule deliveryStart).getD deliveryStart).w.queue 0 =
      [.sync [], .del "M0", .add "M1" sampleMsg] ∧
    ∃ cfg2, Config.run (List.replicate 1 (.writer 0))
        ((Config.run deliverySchedule deliveryStart).getD deliveryStart) = .ok cfg2 ∧
      (cfg2.w.heap 0).written = [.sync [], .del "M0", .add "M1" sampleMsg] ∧
      cfg2.w.queue 0 = [] :=
  have h := (subscriber_receives_broadcasts_in_order 0 deliveryStart
    (by decide) rfl rfl rfl rfl (fun pc h => by simp [deliveryStart] at h)).1
    deliverySchedule
    ((Config.run deliverySchedule deliveryStart).getD deliveryStart)
    (by decide) rfl rfl
  ⟨rfl, h.2.1 (Or.inr rfl), h.2.2⟩

/-! ## A subscriber connecting during a creation, statement by statement -/

theorem step_keeps_prod (cfg cfg1 : Config) (t : Tick) (ht : t ≠ .prod)
    (h : cfg.step t = .ok cfg1) :
    cfg1.prod = cfg.prod ∧ cfg1.setup.cl = cfg.setup.cl ∧ cfg1.w.ms = cfg.w.ms := by
  cases t with
  | prod => exact absurd rfl ht
  | ws =>
    simp only [Config.step, Config.stepWs] at h
    split at h
    · split at h
      · cases h
      · cases h; exact ⟨rfl, rfl, rfl⟩
    · split at h
      · cases h
      · cases h; exact ⟨rfl, rfl, rfl⟩
    · cases h; exact ⟨rfl, rfl, rfl⟩
    · split at h
      · cases h; exact ⟨rfl, rfl, rfl⟩
      · cases h
      · cases h
    · cases h
  | writer c =>
    simp only [Config.step, Config.stepWriter] at h
    split at h
    · split at h <;> cases h
    · split at h
      · cases h
      · cases h; exact ⟨rfl, rfl, rfl⟩
  | closeCall c =>
    simp only [Config.step, Config.stepCloseCall, Result.ok.injEq] at h
    subst h
    exact ⟨rfl, rfl, rfl⟩
  | closeStep c pc =>
    simp only [Config.step, Config.stepClose] at h
    split at h
    · cases pc with
      | clear => cases h; exact ⟨rfl, rfl, rfl⟩
      | closeSend =>
        simp only at h
        split at h
        · cases h
        · cases h; exact ⟨rfl, rfl, rfl⟩
      | closeConn => cases h; exact ⟨rfl, rfl, rfl⟩
      | unregister =>
        simp only at h
        split at h
        · cases h
        · cases h; exact ⟨rfl, rfl, rfl⟩
    · cases h

theorem streamIs_other (w : World) (c q : Ptr) (cl : client) (l : List Envelope)
    (hq : c ≠ q) (h : w.streamIs c l) : (w.setClient q cl).streamIs c l := by
  simpa [World.streamIs, World.setClient, World.queue, hq] using h

theorem stepWs_setupInv (m : message) (cfg cfg1 : Config) (hinv : cfg.SetupInv m)
    (h : cfg.stepWs = .ok cfg1) : cfg1.SetupInv m := by
  obtain ⟨hl, hrest⟩ := hinv
  unfold Config.stepWs at h
  cases hpc : cfg.setup.pc with
  | create =>
    rw [hpc] at h
    simp only at h
    split at h
    · cases h
    · rename_i hfresh
      have hfresh1 := not_inUse cfg cfg.setup.cl (by simpa using hfresh)
      cases h
      refine ⟨hl, ?_⟩
      simp only
      exact ⟨hfresh1.2, by simp [World.streamIs, World.setClient, World.queue, client.fresh]⟩
  | register =>
    rw [hpc] at h hrest
    simp only at h hrest
    cases hcur : cfg.prod.cur with
    | some b => rw [hcur] at h; cases h
    | none =>
      rw [hcur] at h
      cases h
      refine ⟨hl, ?_⟩
      simp only
      refine ⟨hrest.1, ?_, hrest.2⟩
      simp only [clients.register]
      split
      · assumption
      · exact List.mem_cons_self _ _
  | marshal =>
    rw [hpc] at h hrest
    simp only at hrest
    cases h
    refine ⟨hl, ?_⟩
    simp only
    exact ⟨hrest.1, hrest.2.1, hrest.2.2, hl⟩
  | send data =>
    rw [hpc] at h hrest
    simp only at h hrest
    obtain ⟨hc, hreg, ⟨ho, hch, hconn, hstream⟩, hdata⟩ := hrest
    cases ht : (cfg.w.heap cfg.setup.cl).send.trySend (.sync data) with
    | sent ch =>
      rw [ht] at h
      cases h
      obtain ⟨hch1, _, _⟩ := trySend_sent _ _ _ ht
      refine ⟨hl, ?_⟩
      simp only
      refine ⟨hc, hreg, data, hdata, ?_, ?_, ?_, ?_⟩
      · simpa [World.setSend, World.setClient] using ho
      · simpa [World.setSend, World.setClient, hch1] using hch
      · simpa [World.setSend, World.setClient] using hconn
      · have hs : (cfg.w.heap cfg.setup.cl).written ++ (cfg.w.heap cfg.setup.cl).send.buf
            = [] := hstream
        simp [World.setSend, World.setClient, World.queue, hch1, ← List.append_assoc, hs]
    | full => rw [ht] at h; cases h
    | closedChan => rw [ht] at h; cases h
  | returned =>
    rw [hpc] at h
    cases h

theorem setupInv_of_same (m : message) (cfg cfg1 : Config)
    (hsetup : cfg1.setup = cfg.setup) (hms : cfg1.w.ms = cfg.w.ms)
    (hcl : (∀ pc, (cfg.setup.cl, pc) ∉ cfg.closers) →
      ∀ pc, (cfg.setup.cl, pc) ∉ cfg1.closers)
    (hreg : (∀ pc, (cfg.setup.cl, pc) ∉ cfg.closers) →
      cfg.setup.cl ∈ cfg.w.cs.items → cfg.setup.cl ∈ cfg1.w.cs.items)
    (hstream : (∀ pc, (cfg.setup.cl, pc) ∉ cfg.closers) →
      ∀ l, cfg.w.streamIs cfg.setup.cl l → cfg1.w.streamIs cfg.setup.cl l)
    (hinv : cfg.SetupInv m) : cfg1.SetupInv m := by
  obtain ⟨hl, hrest⟩ := hinv
  unfold Config.SetupInv
  rw [hsetup, hms]
  refine ⟨hl, ?_⟩
  cases hpc : cfg.setup.pc with
  | create => trivial
  | register =>
    rw [hpc] at hrest
    simp only at hrest ⊢
    exact ⟨hcl hrest.1, hstream hrest.1 _ hrest.2⟩
  | marshal =>
    rw [hpc] at hrest
    simp only at hrest ⊢
    exact ⟨hcl hrest.1, hreg hrest.1 hrest.2.1, hstream hrest.1 _ hrest.2.2⟩
  | send data =>
    rw [hpc] at hrest
    simp only at hrest ⊢
    exact ⟨hcl hrest.1, hreg hrest.1 hrest.2.1, hstream hrest.1 _ hrest.2.2.1, hrest.2.2.2⟩
  | returned =>
    rw [hpc] at hrest
    simp only at hrest ⊢
    obtain ⟨h1, h2, data, h3, h4⟩ := hrest
    exact ⟨hcl h1, hreg h1 h2, data, h3, hstream h1 _ h4⟩

theorem step_setupInv (m : message) (cfg cfg1 : Config) (t : Tick)
    (ht1 : t ≠ .prod) (ht2 : t ≠ .closeCall cfg.setup.cl)
    (hinv : cfg.SetupInv m) (h : cfg.step t = .ok cfg1) : cfg1.SetupInv m := by
  cases t with
  | prod => exact absurd rfl ht1
  | ws => exact stepWs_setupInv m cfg cfg1 hinv h
  | writer c =>
    simp only [Config.step, Config.stepWriter] at h
    split at h
    · split at h <;> cases h
    · rename_i e rest hb
      split at h
      · cases h
      · cases h
        refine setupInv_of_same m cfg _ rfl rfl (fun h => h) (fun _ h => h) ?_ hinv
        intro _ l hs
        by_cases hc : cfg.setup.cl = c
        · subst hc
          obtain ⟨h1, h2, h3, h4⟩ := hs
          refine ⟨?_, ?_, ?_, ?_⟩
          · simpa [World.setClient, client.afterWrite] using h1
          · simpa [World.setClient, client.afterWrite] using h2
          · simpa [World.setClient, client.afterWrite] using h3
          · rw [← h4]
            simp [World.setClient, World.queue, hb, client.afterWrite]
        · exact streamIs_other _ _ _ _ _ hc hs
  | closeCall c =>
    have hc : cfg.setup.cl ≠ c := fun h => ht2 (h ▸ rfl)
    simp only [Config.step, Config.stepCloseCall, Result.ok.injEq] at h
    subst h
    refine setupInv_of_same m cfg _ rfl rfl ?_ (fun _ h => h) (fun _ _ h => h) hinv
    intro hno pc hm
    simp only [List.mem_cons, Prod.mk.injEq, hc, false_and, false_or] at hm
    exact hno pc hm
  | closeStep c pc =>
    simp only [Config.step, Config.stepClose] at h
    split at h
    · rename_i hmem
      have hne : (∀ pc1, (cfg.setup.cl, pc1) ∉ cfg.closers) → cfg.setup.cl ≠ c :=
        fun hno hc => hno pc (hc ▸ hmem)
      have hcl : ∀ (pc1 pc2 : ClosePc), (∀ pc3, (cfg.setup.cl, pc3) ∉ cfg.closers) →
          ∀ pc3, (cfg.setup.cl, pc3) ∉ (c, pc1) :: cfg.closers.erase (c, pc2) := by
        intro pc1 pc2 hno pc3 hm
        simp only [List.mem_cons, Prod.mk.injEq, hne hno, false_and, false_or] at hm
        exact hno pc3 (List.mem_of_mem_erase hm)
      cases pc with
      | clear =>
        cases h
        exact setupInv_of_same m cfg _ rfl rfl (hcl _ _) (fun _ h => h)
          (fun hno l hs => streamIs_other _ _ _ _ _ (hne hno) hs) hinv
      | closeSend =>
        simp only at h
        split at h
        · cases h
        · cases h
          exact setupInv_of_same m cfg _ rfl rfl (hcl _ _) (fun _ h => h)
            (fun hno l hs => streamIs_other _ _ _ _ _ (hne hno) hs) hinv
      | closeConn =>
        cases h
        exact setupInv_of_same m cfg _ rfl rfl (hcl _ _) (fun _ h => h)
          (fun hno l hs => streamIs_other _ _ _ _ _ (hne hno) hs) hinv
      | unregister =>
        simp only at h
        split at h
        · cases h
        · cases h
          refine setupInv_of_same m cfg _ rfl rfl
            (fun hno pc3 hm => hno pc3 (List.mem_of_mem_erase hm)) ?_
            (fun _ _ hs => hs) hinv
          intro hno hreg
          simp only [clients.unregister]
          split
          · simp [hreg, hne hno]
          · exact hreg
    · cases h

theorem run_setupInv (m : message) (sched : List Tick) :
    ∀ (cfg cfg1 : Config),
      (∀ t, t ∈ sched → t ≠ .prod ∧ t ≠ .closeCall cfg.setup.cl) →
      cfg.SetupInv m → Config.run sched cfg = .ok cfg1 →
      cfg1.SetupInv m ∧ cfg1.prod = cfg.prod ∧ cfg1.setup.cl = cfg.setup.cl := by
  induction sched with
  | nil =>
    intro cfg cfg1 _ hinv h
    simp only [Config.run, Result.ok.injEq] at h
    subst h
    exact ⟨hinv, rfl, rfl⟩
  | cons t ts ih =>
    intro cfg cfg1 hticks hinv h
    simp only [Config.run] at h
    cases hstep : cfg.step t with
    | ok cfg2 =>
      rw [hstep] at h
      have ht := hticks t (List.mem_cons_self _ _)
      obtain ⟨hp, hcl, _⟩ := step_keeps_prod cfg cfg2 t ht.1 hstep
      obtain ⟨h1, h2, h3⟩ := ih cfg2 cfg1
        (fun t1 ht1 => by
          rw [hcl]
          exact hticks t1 (List.mem_cons_of_mem _ ht1))
        (step_setupInv m cfg cfg2 t ht.1 ht.2 hinv hstep) h
      exact ⟨h1, h2.trans hp, h3.trans hcl⟩
    | blocked => rw [hstep] at h; cases h
    | invalid => rw [hstep] at h; cases h
    | panic => rw [hstep] at h; cases h

/-- C7 amended: `postMessages` stores a record and `ws` then sets up a new
subscriber, statement by statement among the write loops and calls of `close`
on other subscribers, before `postMessages` goes on to broadcast; no `close`
is called on the new subscriber.  Then the sync snapshot of the new subscriber
has the record under its `Sid`, and once the broadcast has completed, whatever
the interleaving, what the subscriber has written to its connection followed
by what is in its queue is that sync envelope followed by the add envelope of
the same creation: the record is delivered in both. -/
theorem subscriber_connecting_between (m : message) (order : List Ptr) (js : List Job)
    (cfg cfgA cfgB cfgC : Config) (setup bcast : List Tick)
    (hcur : cfg.prod.cur = none)
    (hjobs : cfg.prod.jobs = .add m :: .broadcastAdd m order :: js)
    (hpc : cfg.setup.pc = .create)
    (hadd : cfg.step .prod = .ok cfgA)
    (hsetup : ∀ t, t ∈ setup → t ≠ .prod ∧ t ≠ .closeCall cfg.setup.cl)
    (hrunB : Config.run setup cfgA = .ok cfgB)
    (hret : cfgB.setup.pc = .returned)
    (hbcast : ∀ t, t ∈ bcast → t ≠ .closeCall cfg.setup.cl)
    (hrunC : Config.run bcast cfgB = .ok cfgC)
    (hdone : cfgC.prod.cur = none ∧ cfgC.prod.jobs = js) :
    ∃ snap, lookup m.Sid snap = some m ∧
      (cfgC.w.heap cfg.setup.cl).written ++ cfgC.w.queue cfg.setup.cl =
        [.sync snap, .add m.Sid m] := by
  have hA : cfgA =
      { cfg with w := { cfg.w with ms := cfg.w.ms.add m },
                 prod := { cur := none, jobs := .broadcastAdd m order :: js } } := by
    simp only [Config.step, Config.stepProd, hcur, hjobs, Result.ok.injEq] at hadd
    exact hadd.symm
  have hclA : cfgA.setup.cl = cfg.setup.cl := by rw [hA]
  have hinvA : cfgA.SetupInv m := by
    rw [hA]
    refine ⟨by simp [lookup_add], ?_⟩
    simp only [hpc]
  obtain ⟨hinvB, hprodB, hclB⟩ := run_setupInv m setup cfgA cfgB
    (fun t ht => by rw [hclA]; exact hsetup t ht) hinvA hrunB
  obtain ⟨_, hB⟩ := hinvB
  rw [hret] at hB
  simp only at hB
  obtain ⟨hno, hreg, snap, hsnap, ho, hch, hconn, hstream⟩ := hB
  have hprodB1 : cfgB.prod = { cur := none, jobs := .broadcastAdd m order :: js } := by
    rw [hprodB, hA]
  have hinv : cfgB.Inv (fun _ => true) cfgB.setup.cl
      ([.sync snap] ++ envelopes (.broadcastAdd m order :: js)) :=
    ⟨hreg, ho, hch, hconn, by simp [Producer.pendingFor, hprodB1, hstream],
      by intro b hb; simp [hprodB1] at hb, Or.inr (Or.inr hret), hno⟩
  obtain ⟨_, _, _, _, h5, _⟩ := run_inv _ cfgB.setup.cl _ (fun _ _ => rfl) bcast cfgB cfgC
    (fun t ht => by rw [hclB, hclA]; exact hbcast t ht) hinv hrunC
  refine ⟨snap, hsnap, ?_⟩
  rw [hclB, hclA] at h5
  simp only [Producer.pendingFor, hdone.1, hdone.2, List.nil_append, List.filter_true,
    envelopes, List.filterMap_cons, Job.envelope, List.singleton_append] at h5
  have h6 : ((cfgC.w.heap cfg.setup.cl).written ++ cfgC.w.queue cfg.setup.cl) ++
      List.filterMap Job.envelope js =
      [.sync snap, .add m.Sid m] ++ List.filterMap Job.envelope js := by
    simpa using h5
  exact List.append_cancel_right h6

/-- Witness for `subscriber_connecting_between`: subscriber 0 is connected;
`M1` is stored; `ws` sets up subscriber 1 while the write loop of 0 takes a
frame; the creation is broadcast to both while the write loop of 1 takes its
sync frame and a task starts closing 0. -/
theorem subscriber_connecting_between_witness :
    ∃ snap, lookup "M1" snap = some sampleMsg ∧
      (betweenDone.w.heap 1).written ++ betweenDone.w.queue 1 =
        [.sync snap, .add "M1" sampleMsg] :=
  subscriber_connecting_between sampleMsg [1, 0] [] betweenStart betweenStored
    betweenConnected betweenDone betweenSetup betweenBroadcast rfl rfl rfl rfl
    (by decide) rfl rfl (by decide) rfl ⟨rfl, rfl⟩

end TwilioMock
